import Mathlib

/-!
# sliding-sync: extension requests and the response envelope

A shallow embedding of `sync3/extensions/extensions.go` and `sync3/response.go`.

Go pointers to extension requests are addresses into an explicit heap, so that the in-place
mutation done by `curr.ApplyDelta(next)` and the sharing between the stored aggregate, the
incoming aggregate and the returned aggregate are all visible.  A `*bool` is an `Option Bool`.
-/

namespace Extensions

/-! ## The enabled flag -/

/-- Mixin for managing the enabled flag: `Enabled *bool`, `none` for "not specified". -/
structure Enableable where
  Enabled : Option Bool
deriving DecidableEq, Repr

/-- Source: `func (r *Enableable) IsEnabled() *bool`. -/
def Enableable.IsEnabled (r : Enableable) : Option Bool :=
  r.Enabled

/-- The five extensions, in the order in which `Request` declares them. -/
inductive ExtKind where
  | ToDevice
  | E2EE
  | AccountData
  | Typing
  | Receipts
deriving DecidableEq, Repr

/-- Modelled from the spec: the concrete request types `ToDeviceRequest`, `E2EERequest`,
`AccountDataRequest`, `TypingRequest` and `ReceiptsRequest` are declared outside
`extensions.go`.  Each is the `Enableable` mixin "composed into each extension's configuration
struct" together with extension-specific sticky fields, here a value of type `α`. -/
structure ExtRequest (α : Type) extends Enableable where
  params : α
deriving DecidableEq, Repr

/-- The heap of extension request objects: one region per concrete type, so that pointers of
different types never alias.  Every address holds an object (Go has no dangling pointers). -/
abbrev Heap (α : Type) := ExtKind → Nat → ExtRequest α

/-- Store `v` at address `a` of region `k`. -/
def Heap.store {α : Type} (h : Heap α) (k : ExtKind) (a : Nat) (v : ExtRequest α) : Heap α :=
  fun k' a' => if k' = k ∧ a' = a then v else h k' a'

/-- A `GenericRequest` interface value as built by `fields()`: a dynamic type and a pointer of
that type, which may be nil. -/
structure GenericRequest where
  kind : ExtKind
  ptr : Option Nat
deriving DecidableEq, Repr

/-- Source: `gnext.IsEnabled()` on an interface value that is not the nil interface.  The method
reads `r.Enabled` through the pointer the interface holds: on a nil pointer that is a nil
dereference and the call panics (`none`). -/
def GenericRequest.IsEnabled {α : Type} (h : Heap α) (gnext : GenericRequest) :
    Option (Option Bool) :=
  match gnext.ptr with
  | none => none
  | some a => some (h gnext.kind a).IsEnabled

/-- Source: `func (r *Enableable) ApplyDelta(gnext GenericRequest)`: the receiver's new value, or
`none` when the call panics.  `gnext` is `none` for the nil interface, the only value the
guard `gnext == nil` catches; any other interface value, one that holds a nil pointer
included, goes on to `gnext.IsEnabled()`. -/
def Enableable.ApplyDelta {α : Type} (h : Heap α) (r : Enableable)
    (gnext : Option GenericRequest) : Option Enableable :=
  match gnext with
  | none => some r
  | some next =>
    match next.IsEnabled h with
    | none => none
    | some nextEnabled =>
      -- nil means they didn't specify this field, so leave it unchanged.
      if nextEnabled ≠ none then some { r with Enabled := nextEnabled } else some r

/-- Source: `func ExtensionEnabled(r GenericRequest) bool`, on the request object `r` refers to. -/
def ExtensionEnabled {α : Type} (r : ExtRequest α) : Bool :=
  let enabled := r.IsEnabled
  match enabled with
  | some true => true
  | _ => false

/-! ## The request aggregate -/

/-- Request is the JSON request body under `extensions`: five pointers, nil when absent. -/
structure Request where
  ToDevice : Option Nat
  E2EE : Option Nat
  AccountData : Option Nat
  Typing : Option Nat
  Receipts : Option Nat
deriving DecidableEq, Repr

/-- Source: `func (r *Request) fields() []GenericRequest`. -/
def Request.fields (r : Request) : List GenericRequest :=
  [⟨.ToDevice, r.ToDevice⟩, ⟨.E2EE, r.E2EE⟩, ⟨.AccountData, r.AccountData⟩,
   ⟨.Typing, r.Typing⟩, ⟨.Receipts, r.Receipts⟩]

/-- The type assertion `f.(*T)` for the concrete type `T` of kind `k`: the pointer when the
dynamic type is `T`, a panic (`none`) otherwise. -/
def GenericRequest.assert (f : GenericRequest) (k : ExtKind) : Option (Option Nat) :=
  if f.kind = k then some f.ptr else none

/-- Source: `func (r *Request) setFields(fields []GenericRequest)`; `none` is a panic (index out of
range or failed type assertion).  All five slots are overwritten, so the result does not
depend on the receiver's old value. -/
def Request.setFields (_r : Request) (fields : List GenericRequest) : Option Request := do
  let toDevice ← (← fields[0]?).assert .ToDevice
  let e2ee ← (← fields[1]?).assert .E2EE
  let accountData ← (← fields[2]?).assert .AccountData
  let typing ← (← fields[3]?).assert .Typing
  let receipts ← (← fields[4]?).assert .Receipts
  pure ⟨toDevice, e2ee, accountData, typing, receipts⟩

/-- Source: `func isNil(v interface{}) bool`: the interface holds a nil pointer.  (The interface values
built by `fields()` always carry a pointer type, so `v == nil` itself never holds.) -/
def isNil (v : GenericRequest) : Bool :=
  v.ptr.isNone

/-- The loop of `EnabledExtensions`: `exts` is the slice built so far. -/
def Request.EnabledExtensions.loop {α : Type} (h : Heap α) :
    List GenericRequest → List GenericRequest → List GenericRequest
  | [], exts => exts
  | f :: rest, exts =>
    match f.ptr with
    | none => loop h rest exts -- isNil(f): continue
    | some a =>
      if ExtensionEnabled (h f.kind a) then loop h rest (exts ++ [f])
      else loop h rest exts

/-- Source: `func (r Request) EnabledExtensions() (exts []GenericRequest)`. -/
def Request.EnabledExtensions {α : Type} (h : Heap α) (r : Request) : List GenericRequest :=
  Request.EnabledExtensions.loop h r.fields []

/-- Modelled from the spec: the `ApplyDelta` methods of the five concrete request types are
declared outside `extensions.go`.  Per the capability contract each "delegates to" the
`Enableable` merge "plus extension-specific sticky fields": the object at `curr` gets the flag
merged by `Enableable.ApplyDelta` and its extension-specific part mixed by `mix` with that of
the object `next` holds.  The result is the heap after the call, or `none` when the call
panics, which it does on a `next` that holds a nil pointer. -/
def GenericRequest.ApplyDelta {α : Type} (mix : ExtKind → α → α → α) (h : Heap α)
    (k : ExtKind) (curr : Nat) (next : GenericRequest) : Option (Heap α) :=
  let r := h k curr
  match r.toEnableable.ApplyDelta h (some next), next.ptr with
  | some merged, some n =>
    some (h.store k curr
      { toEnableable := merged, params := mix k r.params (h next.kind n).params })
  | _, _ => none

/-- The loop of `Request.ApplyDelta` over `currFields[i]`, `nextFields[i]`: the heap after the
in-place merges, the updated `currFields` and `hasChanges`, or `none` when a call panics.
Both slices come from `fields()` and have five entries. -/
def Request.ApplyDelta.loop {α : Type} (mix : ExtKind → α → α → α) :
    Heap α → List GenericRequest → List GenericRequest → Bool →
      Option (Heap α × List GenericRequest × Bool)
  | h, curr :: currFields, next :: nextFields, hasChanges =>
    if isNil next then
      -- missing extension, keep it sticky
      (loop mix h currFields nextFields hasChanges).map fun (h', cs, hc) => (h', curr :: cs, hc)
    else
      match curr.ptr with
      | none =>
        -- the next field is what we want to apply
        (loop mix h currFields nextFields true).map fun (h', cs, hc) => (h', next :: cs, hc)
      | some c =>
        -- mix the two fields together
        match GenericRequest.ApplyDelta mix h curr.kind c next with
        | none => none
        | some h1 =>
          (loop mix h1 currFields nextFields true).map fun (h', cs, hc) => (h', curr :: cs, hc)
  | h, currFields, _, hasChanges => some (h, currFields, hasChanges)

/-- Source: `func (r Request) ApplyDelta(next *Request) Request`, with `next` the aggregate the
(non-nil) argument points to.  The receiver is passed by value; the result is the heap after
the call and the returned aggregate, or `none` if a call in the loop or `setFields` panics. -/
def Request.ApplyDelta {α : Type} (mix : ExtKind → α → α → α) (h : Heap α) (r next : Request) :
    Option (Heap α × Request) :=
  let currFields := r.fields
  let nextFields := next.fields
  match Request.ApplyDelta.loop mix h currFields nextFields false with
  | none => none
  | some (h', currFields', hasChanges) =>
    if hasChanges then
      (r.setFields currFields').map fun r' => (h', r')
    else
      some (h', r)

/-! ## Vocabulary for the statements about the merge -/

/-- The pointer an aggregate holds for the extension of kind `k`. -/
def Request.get (r : Request) : ExtKind → Option Nat
  | .ToDevice => r.ToDevice
  | .E2EE => r.E2EE
  | .AccountData => r.AccountData
  | .Typing => r.Typing
  | .Receipts => r.Receipts

/-- The slot-wise outcome of a merge: keep `curr` when `next` is nil, adopt `next` when `curr`
is nil, keep the (mutated) `curr` otherwise. -/
def mergedSlot (curr next : Option Nat) : Option Nat :=
  match next with
  | none => curr
  | some n =>
    match curr with
    | none => some n
    | some c => some c

/-- The object a both-present merge leaves at `curr`'s address. -/
def mergedObject {α : Type} (mix : ExtKind → α → α → α) (k : ExtKind)
    (curr next : ExtRequest α) : ExtRequest α :=
  { Enabled := match next.Enabled with
      | some b => some b
      | none => curr.Enabled,
    params := mix k curr.params next.params }

/-- One iteration of the merge loop on the heap, for the slot of kind `k`: with both slots
non-nil the object at `curr` becomes the merged object. -/
def mergeStep {α : Type} (mix : ExtKind → α → α → α) (h : Heap α) (k : ExtKind)
    (curr next : Option Nat) : Heap α :=
  match next, curr with
  | some n, some c => h.store k c (mergedObject mix k (h k c) (h k n))
  | _, _ => h

/-- The five iterations of the merge loop on the heap, in slot order. -/
def mergedHeap {α : Type} (mix : ExtKind → α → α → α) (h : Heap α) (r next : Request) : Heap α :=
  let h1 := mergeStep mix h .ToDevice r.ToDevice next.ToDevice
  let h2 := mergeStep mix h1 .E2EE r.E2EE next.E2EE
  let h3 := mergeStep mix h2 .AccountData r.AccountData next.AccountData
  let h4 := mergeStep mix h3 .Typing r.Typing next.Typing
  mergeStep mix h4 .Receipts r.Receipts next.Receipts

/-- The filter `EnabledExtensions` applies: the interface holds a non-nil pointer to an object
whose flag is explicitly true. -/
def explicitlyOn {α : Type} (h : Heap α) (f : GenericRequest) : Bool :=
  match f.ptr with
  | none => false
  | some a => decide ((h f.kind a).Enabled = some true)

/-- The declaration order of the five extension slots. -/
def declarationOrder : List ExtKind :=
  [.ToDevice, .E2EE, .AccountData, .Typing, .Receipts]

/-! ## A concrete connection: the sticky to-device scenario -/

/-- An extension-specific merge on one numeric parameter (a limit): a zero in the incoming
request means "not given". -/
def stickyLimit : ExtKind → Nat → Nat → Nat :=
  fun _ curr next => if next = 0 then curr else next

/-- A heap in which to-device object 0 is `enabled: true, limit: 5`, to-device object 1 is
`limit: 10` with no flag, and to-device object 2 is `enabled: false`. -/
def scenarioHeap : Heap Nat :=
  fun k a =>
    match k, a with
    | .ToDevice, 0 => { Enabled := some true, params := 5 }
    | .ToDevice, 1 => { Enabled := none, params := 10 }
    | .ToDevice, 2 => { Enabled := some false, params := 0 }
    | _, _ => { Enabled := none, params := 0 }

/-- The stored aggregate: only `to_device`, at object 0. -/
def scenarioCurr : Request :=
  ⟨some 0, none, none, none, none⟩

/-- The incoming aggregate: only `to_device`, at object 1. -/
def scenarioNext : Request :=
  ⟨some 1, none, none, none, none⟩

end Extensions

/-!
# The response envelope and its list operations (`sync3/response.go`)

`encoding/json` and `gjson` are libraries; they are modelled on parsed JSON values, member
order kept.  Decoding follows the decoder of `encoding/json` (`decode.go`): the members of an
object are stored one after the other, each into the field its key selects, and a member
named twice is decoded into what the first one left there, a slice element by element.
-/

namespace Sync3

/-! ## JSON values and the library calls made on them -/

/-- A parsed JSON value.  Objects keep their members in document order, repeated names
included.  A number literal that is a plain integer (no fraction, no exponent) is `int`; any
other number literal is `frac`, with its text. -/
inductive JSON where
  | null
  | bool (b : Bool)
  | int (n : Int)
  | frac (literal : String)
  | str (s : String)
  | arr (elems : List JSON)
  | obj (members : List (String × JSON))

/-- The error of a failed decode, by kind only: a `*json.SyntaxError` (the bytes are not JSON)
or a `*json.UnmarshalTypeError` (a JSON value does not fit the Go value it is decoded into).
The message, the offset and the field name of the error are not modelled. -/
inductive Error where
  | SyntaxError
  | UnmarshalTypeError
deriving DecidableEq, Repr

/-- Case folding of one character as `encoding/json` does it when matching an object key to a
struct field: ASCII letters fold to lower case, and the Kelvin sign and the long s fold to
`k` and `s`. -/
def foldChar (c : Char) : Char :=
  if c = Char.ofNat 0x212A then 'k'
  else if c = Char.ofNat 0x017F then 's'
  else c.toLower

/-- Field matching: `encoding/json` matches an object key to a field name "preferring an exact match but also
accepting a case-insensitive match".  Every field name below is lower-case ASCII and no two
of one struct are equal after folding, so a key selects the field `name` exactly when its
folding is `name`. -/
def matchesField (name key : String) : Bool :=
  decide (key.data.map foldChar = name.data)

/-- Source: `gjson.GetBytes(json, key).Exists()` for a plain key: the value is an object with a member
of exactly that name (whatever the member's value, `null` included). -/
def gjsonExists (json : JSON) (key : String) : Bool :=
  match json with
  | .obj members => members.any fun m => decide (m.1 = key)
  | _ => false

/-- The value fits Go's `int64` (and `int`, on a 64-bit platform). -/
def inInt64 (n : Int) : Bool :=
  decide (-9223372036854775808 ≤ n ∧ n ≤ 9223372036854775807)

/-- Source: `json.Unmarshal` into a `string` holding `cur`: `null` leaves it, a string replaces it. -/
def unmarshalString (cur : String) : JSON → Except Error String
  | .null => .ok cur
  | .str s => .ok s
  | _ => .error .UnmarshalTypeError

/-- Source: `json.Unmarshal` into an `int64` or `int` holding `cur`: `null` leaves it, an integer
literal in range replaces it. -/
def unmarshalInt (cur : Int) : JSON → Except Error Int
  | .null => .ok cur
  | .int n =>
    if inInt64 n then .ok n else .error .UnmarshalTypeError
  | _ => .error .UnmarshalTypeError

/-- Source: `json.Unmarshal` into a `*int` holding `cur`: `null` sets the pointer to nil, anything else
is decoded into the pointee (allocated, zero, when the pointer is nil). -/
def unmarshalIntPtr (cur : Option Int) : JSON → Except Error (Option Int)
  | .null => .ok none
  | j => (unmarshalInt (cur.getD 0) j).map some

/-- A Go slice while `encoding/json` decodes into it: `elems` are its elements (`s[:len(s)]`),
`spare` the elements a longer earlier value left behind them in the backing array.  Beyond
`spare` the backing array, grown when needed, holds zero values. -/
structure Slice (τ : Type) where
  elems : List τ
  spare : List τ
deriving DecidableEq, Repr

/-- The nil slice. -/
def Slice.nil {τ : Type} : Slice τ :=
  ⟨[], []⟩

/-- Decode the elements of a JSON array one after the other into the backing array
`backing`: element `i` is decoded by `elem` into the element already at index `i`
(`d.value(v.Index(i))`), or into `zero` where the backing array has not been written. -/
def unmarshalElems {τ : Type} (elem : τ → JSON → Except Error τ) (zero : τ) :
    List τ → List JSON → Except Error (List τ)
  | _, [] => .ok []
  | backing, j :: rest =>
    match elem (backing.headD zero) j with
    | .error e => .error e
    | .ok v =>
      match unmarshalElems elem zero backing.tail rest with
      | .error e => .error e
      | .ok vs => .ok (v :: vs)

/-- Source: `json.Unmarshal` into a slice holding `cur`: `null` sets it to nil; an empty array
sets it to a fresh empty slice; an array of `n` elements decodes element `i` into the element
already at index `i` of the backing array and sets the length to `n`, what the array did not
reach staying behind as `spare`; anything else is an error. -/
def unmarshalSlice {τ : Type} (elem : τ → JSON → Except Error τ) (zero : τ) (cur : Slice τ) :
    JSON → Except Error (Slice τ)
  | .null => .ok Slice.nil
  | .arr [] => .ok Slice.nil
  | .arr elems =>
    (unmarshalElems elem zero (cur.elems ++ cur.spare) elems).map fun vs =>
      ⟨vs, (cur.elems ++ cur.spare).drop elems.length⟩
  | _ => .error .UnmarshalTypeError

/-- Feed the members of an object to a struct, in document order; `setField` decodes one
member into the field its key selects (and ignores a key that selects none). -/
def unmarshalMembers {σ : Type} (setField : σ → String → JSON → Except Error σ) :
    List (String × JSON) → σ → Except Error σ
  | [], s => .ok s
  | (key, value) :: rest, s =>
    match setField s key value with
    | .error e => .error e
    | .ok s' => unmarshalMembers setField rest s'

/-- Source: `json.Unmarshal` into a struct holding `cur`: `null` leaves it, an object sets its fields
member by member, anything else is an error. -/
def unmarshalStruct {σ : Type} (setField : σ → String → JSON → Except Error σ) (cur : σ) :
    JSON → Except Error σ
  | .null => .ok cur
  | .obj members => unmarshalMembers setField members cur
  | _ => .error .UnmarshalTypeError

/-! ## Rooms and list operations -/

def OpSync : String := "SYNC"
def OpInvalidate : String := "INVALIDATE"
def OpInsert : String := "INSERT"
def OpDelete : String := "DELETE"
def OpUpdate : String := "UPDATE"

/-- Modelled from the spec: `Room` is declared in another file of the package.  Of a room
snapshot only the identifier matters here, the field `RoomID` with the wire name `room_id`. -/
structure Room where
  RoomID : String
deriving DecidableEq, Repr

/-- Modelled from the spec: decoding one member of a room snapshot. -/
def Room.setField (r : Room) (key : String) (value : JSON) : Except Error Room :=
  if matchesField "room_id" key then
    (unmarshalString r.RoomID value).map fun s => { r with RoomID := s }
  else .ok r

/-- Modelled from the spec: `json.Unmarshal` into a `Room` holding `cur`. -/
def Room.unmarshal (cur : Room) (json : JSON) : Except Error Room :=
  unmarshalStruct Room.setField cur json

/-- Modelled from the spec: `json.Marshal` of a `Room`. -/
def Room.marshal (r : Room) : JSON :=
  .obj [("room_id", .str r.RoomID)]

/-- Source: `json.Unmarshal` into a `*Room` holding `cur`: `null` sets the pointer to nil, anything
else is decoded into the pointee (allocated, zero, when the pointer is nil). -/
def unmarshalRoomPtr (cur : Option Room) : JSON → Except Error (Option Room)
  | .null => .ok none
  | j => (Room.unmarshal (cur.getD ⟨""⟩) j).map some

/-- Source: `type ResponseOpRange struct`; a nil slice is the empty list. -/
structure ResponseOpRange where
  Operation : String
  Range : List Int
  Rooms : List Room
deriving DecidableEq, Repr

/-- Source: `type ResponseOpSingle struct`; `Index *int` and `Room *Room` are options. -/
structure ResponseOpSingle where
  Operation : String
  Index : Option Int
  Room : Option Room
deriving DecidableEq, Repr

/-- A `ResponseOp` interface value: a pointer to a freshly decoded op of one of the two
implementing types. -/
inductive ResponseOp where
  | range (oper : ResponseOpRange)
  | single (oper : ResponseOpSingle)
deriving DecidableEq, Repr

/-- Source: `func (r *ResponseOpRange) Op() string`. -/
def ResponseOpRange.Op (r : ResponseOpRange) : String :=
  r.Operation

/-- Source: `func (r *ResponseOpRange) IncludedRoomIDs() []string`. -/
def ResponseOpRange.IncludedRoomIDs (r : ResponseOpRange) : List String :=
  if r.Op = OpInvalidate then
    [] -- the rooms are being excluded
  else
    r.Rooms.map fun room => room.RoomID

/-- Source: `func (r *ResponseOpSingle) Op() string`. -/
def ResponseOpSingle.Op (r : ResponseOpSingle) : String :=
  r.Operation

/-- Source: `func (r *ResponseOpSingle) IncludedRoomIDs() []string`. -/
def ResponseOpSingle.IncludedRoomIDs (r : ResponseOpSingle) : List String :=
  match decide (r.Op = OpDelete), r.Room with
  | false, some room => [room.RoomID]
  | _, _ => [] -- `r.Op() == OpDelete || r.Room == nil`: the room is being excluded

/-- The interface method `Op()`. -/
def ResponseOp.Op : ResponseOp → String
  | .range oper => oper.Op
  | .single oper => oper.Op

/-- The interface method `IncludedRoomIDs()`. -/
def ResponseOp.IncludedRoomIDs : ResponseOp → List String
  | .range oper => oper.IncludedRoomIDs
  | .single oper => oper.IncludedRoomIDs

/-- The variable `oper` of type `ResponseOpRange` while `json.Unmarshal` decodes into it: its
two slices with their backing arrays. -/
structure ResponseOpRange.Decoding where
  Operation : String
  Range : Slice Int
  Rooms : Slice Room
deriving DecidableEq, Repr

/-- The op a decoded `oper` is: the elements of its slices. -/
def ResponseOpRange.Decoding.value (d : ResponseOpRange.Decoding) : ResponseOpRange :=
  ⟨d.Operation, d.Range.elems, d.Rooms.elems⟩

/-- One member of an object decoded into a `ResponseOpRange`, by the struct tags `op`, `range`
and `rooms`. -/
def ResponseOpRange.setField (r : ResponseOpRange.Decoding) (key : String) (value : JSON) :
    Except Error ResponseOpRange.Decoding :=
  if matchesField "op" key then
    (unmarshalString r.Operation value).map fun s => { r with Operation := s }
  else if matchesField "range" key then
    (unmarshalSlice unmarshalInt 0 r.Range value).map fun v => { r with Range := v }
  else if matchesField "rooms" key then
    (unmarshalSlice Room.unmarshal ⟨""⟩ r.Rooms value).map fun v => { r with Rooms := v }
  else .ok r

/-- Source: `json.Unmarshal(op, &oper)` for `var oper ResponseOpRange`. -/
def ResponseOpRange.unmarshal (op : JSON) : Except Error ResponseOpRange :=
  (unmarshalStruct ResponseOpRange.setField ⟨"", Slice.nil, Slice.nil⟩ op).map
    ResponseOpRange.Decoding.value

/-- One member of an object decoded into a `ResponseOpSingle`, by the struct tags `op`, `index`
and `room`. -/
def ResponseOpSingle.setField (r : ResponseOpSingle) (key : String) (value : JSON) :
    Except Error ResponseOpSingle :=
  if matchesField "op" key then
    (unmarshalString r.Operation value).map fun s => { r with Operation := s }
  else if matchesField "index" key then
    (unmarshalIntPtr r.Index value).map fun v => { r with Index := v }
  else if matchesField "room" key then
    (unmarshalRoomPtr r.Room value).map fun v => { r with Room := v }
  else .ok r

/-- Source: `json.Unmarshal(op, &oper)` for `var oper ResponseOpSingle`. -/
def ResponseOpSingle.unmarshal (op : JSON) : Except Error ResponseOpSingle :=
  unmarshalStruct ResponseOpSingle.setField ⟨"", none, none⟩ op

/-- Source: `json.Marshal` of a `*ResponseOpRange`, by its struct tags: `range` and `rooms` are
`omitempty`, so an empty slice leaves the key out. -/
def ResponseOpRange.marshal (r : ResponseOpRange) : JSON :=
  .obj ([("op", .str r.Operation)]
    ++ (if r.Range.isEmpty then [] else [("range", .arr (r.Range.map .int))])
    ++ (if r.Rooms.isEmpty then [] else [("rooms", .arr (r.Rooms.map Room.marshal))]))

/-- Source: `json.Marshal` of a `*ResponseOpSingle`, by its struct tags: `index` and `room` are
`omitempty`, so a nil pointer leaves the key out. -/
def ResponseOpSingle.marshal (r : ResponseOpSingle) : JSON :=
  .obj ([("op", .str r.Operation)]
    ++ (match r.Index with
        | none => []
        | some i => [("index", .int i)])
    ++ (match r.Room with
        | none => []
        | some room => [("room", room.marshal)]))

/-- Source: `json.Marshal` of a `ResponseOp`. -/
def ResponseOp.marshal : ResponseOp → JSON
  | .range oper => oper.marshal
  | .single oper => oper.marshal

/-- Whether the interface value holds a `*ResponseOpRange`. -/
def ResponseOp.isRange : ResponseOp → Bool
  | .range _ => true
  | .single _ => false

/-! ## The envelope -/

/-- Source: `type ResponseList struct`. -/
structure ResponseList where
  Ops : List ResponseOp
  Count : Int
deriving DecidableEq, Repr

/-- A `map[string]Room`, as its bindings (one per key). -/
abbrev RoomMap := List (String × Room)

/-- Source: `type Response struct`; `ε` stands for `extensions.Response`, whose payload types are
declared outside the given sources. -/
structure Response (ε : Type) where
  Lists : List ResponseList
  Rooms : RoomMap
  Extensions : ε
  Pos : String
  Session : String

/-- Source: `func (r *Response) ListOps() int`. -/
def Response.ListOps {ε : Type} (r : Response ε) : Nat :=
  r.Lists.foldl (fun num l => if l.Ops.length > 0 then num + l.Ops.length else num) 0

/-- An element of `temporary.Lists`: the ops still raw (`[]json.RawMessage`). -/
structure TemporaryList where
  Ops : Slice JSON
  Count : Int

/-- The anonymous struct `temporary` of `UnmarshalJSON`. -/
structure Temporary (ε : Type) where
  Rooms : RoomMap
  Lists : Slice TemporaryList
  Extensions : ε
  Pos : String
  Session : String

/-- One member of an object decoded into an element of `temporary.Lists`, by the struct tags
`ops` and `count`.  A `json.RawMessage` takes any value as it is, replacing what it held. -/
def TemporaryList.setField (l : TemporaryList) (key : String) (value : JSON) :
    Except Error TemporaryList :=
  if matchesField "ops" key then
    (unmarshalSlice (fun _ raw => .ok raw) .null l.Ops value).map fun v => { l with Ops := v }
  else if matchesField "count" key then
    (unmarshalInt l.Count value).map fun v => { l with Count := v }
  else .ok l

/-- Decoding the members of an object into a `map[string]Room`: each value is decoded into a
fresh `Room` and stored under its key, replacing an earlier binding. -/
def unmarshalRoomMembers : List (String × JSON) → RoomMap → Except Error RoomMap
  | [], m => .ok m
  | (key, value) :: rest, m =>
    match Room.unmarshal ⟨""⟩ value with
    | .error e => .error e
    | .ok room => unmarshalRoomMembers rest ((m.filter fun b => decide (b.1 ≠ key)) ++ [(key, room)])

/-- Source: `json.Unmarshal` into a `map[string]Room` holding `cur`: `null` sets it to nil, an object
adds its members to the map. -/
def unmarshalRoomMap (cur : RoomMap) : JSON → Except Error RoomMap
  | .null => .ok []
  | .obj members => unmarshalRoomMembers members cur
  | _ => .error .UnmarshalTypeError

/-- One member of the envelope decoded into `temporary`, by the struct tags `rooms`, `lists`,
`extensions`, `pos` and `session_id`; `unmarshalExtensions` decodes an `extensions.Response`. -/
def Temporary.setField {ε : Type} (unmarshalExtensions : ε → JSON → Except Error ε)
    (t : Temporary ε) (key : String) (value : JSON) : Except Error (Temporary ε) :=
  if matchesField "rooms" key then
    (unmarshalRoomMap t.Rooms value).map fun v => { t with Rooms := v }
  else if matchesField "lists" key then
    (unmarshalSlice (unmarshalStruct TemporaryList.setField) ⟨Slice.nil, 0⟩ t.Lists value).map
      fun v => { t with Lists := v }
  else if matchesField "extensions" key then
    (unmarshalExtensions t.Extensions value).map fun v => { t with Extensions := v }
  else if matchesField "pos" key then
    (unmarshalString t.Pos value).map fun v => { t with Pos := v }
  else if matchesField "session_id" key then
    (unmarshalString t.Session value).map fun v => { t with Session := v }
  else .ok t

/-- Source: `json.Unmarshal(b, &temporary)` on the zero `temporary`; `zero` is the zero
`extensions.Response`. -/
def Temporary.unmarshal {ε : Type} (unmarshalExtensions : ε → JSON → Except Error ε) (zero : ε)
    (b : JSON) : Except Error (Temporary ε) :=
  unmarshalStruct (Temporary.setField unmarshalExtensions) ⟨[], Slice.nil, zero, "", ""⟩ b

/-- The body of `for _, op := range l.Ops` for one raw op: the presence of a `range` key picks
the type the op is decoded into. -/
def decodeOp (op : JSON) : Except Error ResponseOp :=
  if gjsonExists op "range" then
    match ResponseOpRange.unmarshal op with
    | .error err => .error err
    | .ok oper => .ok (.range oper)
  else
    match ResponseOpSingle.unmarshal op with
    | .error err => .error err
    | .ok oper => .ok (.single oper)

/-- The loop `for _, op := range l.Ops`, with `listOps` the value of `list.Ops` so far; an
error returns at once. -/
def Response.UnmarshalJSON.ops : List JSON → List ResponseOp → Except Error (List ResponseOp)
  | [], listOps => .ok listOps
  | op :: rest, listOps =>
    match decodeOp op with
    | .error err => .error err
    | .ok oper => ops rest (listOps ++ [oper])

/-- The loop `for i := range temporary.Lists` from index `i` on, with `rLists` the value of
`r.Lists` so far: the final `r.Lists` and the error returned, if any. -/
def Response.UnmarshalJSON.lists :
    List TemporaryList → Nat → List ResponseList → List ResponseList × Option Error
  | [], _, rLists => (rLists, none)
  | l :: rest, i, rLists =>
    match Response.UnmarshalJSON.ops l.Ops.elems [] with
    | .error err => (rLists, some err)
    | .ok listOps => lists rest (i + 1) (rLists.set i ⟨listOps, l.Count⟩)

/-- Source: `func (r *Response) UnmarshalJSON(b []byte) error` on a syntactically valid `b`: the
receiver after the call and the error returned (`none` for nil). -/
def Response.UnmarshalJSON {ε : Type} (unmarshalExtensions : ε → JSON → Except Error ε)
    (zero : ε) (r : Response ε) (b : JSON) : Response ε × Option Error :=
  match Temporary.unmarshal unmarshalExtensions zero b with
  | .error err => (r, some err)
  | .ok temporary =>
    let (rLists, err) :=
      Response.UnmarshalJSON.lists temporary.Lists.elems 0
        (List.replicate temporary.Lists.elems.length ⟨[], 0⟩)
    ({ Lists := rLists, Rooms := temporary.Rooms, Extensions := temporary.Extensions,
       Pos := temporary.Pos, Session := temporary.Session }, err)

/-! ## Vocabulary for the statements about decoding -/

/-- The value of the last member of an object whose key selects the field `name`. -/
def lastMember (name : String) : List (String × JSON) → Option JSON
  | [] => none
  | (key, value) :: rest =>
    match lastMember name rest with
    | some v => some v
    | none => if matchesField name key then some value else none

/-- What a `*int` field holds after an object has been decoded into it: `init` when no member
selected the field, nil when the last one that did is `null`, the integer when it is an
integer literal; any other last value does not decode. -/
def IntPtrAfter (init : Option Int) (last : Option JSON) (result : Option Int) : Prop :=
  match last with
  | none => result = init
  | some .null => result = none
  | some (.int k) => result = some k ∧ inInt64 k = true
  | some _ => False

/-- The values of the members of an object whose key selects the field `name`, in document
order. -/
def selected (name : String) (members : List (String × JSON)) : List JSON :=
  (members.filter fun m => matchesField name m.1).map fun m => m.2

/-- The member of an object that the field `name` is read from, when one member selects it;
`none` when none does, or when the value is not an object. -/
def JSON.field (name : String) : JSON → Option JSON
  | .obj members => lastMember name members
  | _ => none

/-- The elements of an array member; none when the member is absent or is not an array. -/
def arrayElems : Option JSON → List JSON
  | some (.arr elems) => elems
  | _ => []

/-- The integer of a member; 0 when the member is absent or is not an integer. -/
def intOf : Option JSON → Int
  | some (.int n) => n
  | _ => 0

/-- The string of a member; empty when the member is absent or is not a string. -/
def strOf : Option JSON → String
  | some (.str s) => s
  | _ => ""

/-- At most one member of the object selects the field `name`. -/
def selectsOnce (name : String) : JSON → Bool
  | .obj members => decide ((selected name members).length ≤ 1)
  | _ => true

/-- No object of the envelope names a field of the lists twice: `lists` in the envelope, `ops`
and `count` in each list. -/
def noRepeatedFields (b : JSON) : Bool :=
  selectsOnce "lists" b &&
    (arrayElems (b.field "lists")).all fun list =>
      selectsOnce "ops" list && selectsOnce "count" list

/-- Decoding the values `vs` one after the other into the same Go value. -/
def decodeEach {φ : Type} (dec : φ → JSON → Except Error φ) : φ → List JSON → Except Error φ
  | cur, [] => .ok cur
  | cur, v :: vs =>
    match dec cur v with
    | .error e => .error e
    | .ok cur' => decodeEach dec cur' vs

/-! ## Wire examples -/

/-- Wire form `{"ops":[{"op":"SYNC"}],"count":3}`. -/
def listOneOp : JSON :=
  .obj [("ops", .arr [.obj [("op", .str "SYNC")]]), ("count", .int 3)]

/-- Wire form `{"count":4}`. -/
def listNoOps : JSON :=
  .obj [("count", .int 4)]

/-- Wire form `{"lists":[{"ops":[{"op":"SYNC"}],"count":3}],"lists":[{"count":4}]}`: the member
`lists` is given twice. -/
def envelopeRepeatedLists : JSON :=
  .obj [("lists", .arr [listOneOp]), ("lists", .arr [listNoOps])]

/-- Wire form `{"op":"SYNC","range":[0,2],"rooms":[{"room_id":"!a"},{"room_id":"!b"}]}`. -/
def opSyncRange : JSON :=
  .obj [("op", .str "SYNC"), ("range", .arr [.int 0, .int 2]),
    ("rooms", .arr [.obj [("room_id", .str "!a")], .obj [("room_id", .str "!b")]])]

/-- Wire form `{"op":"DELETE","index":0}`. -/
def opDeleteIndexZero : JSON :=
  .obj [("op", .str "DELETE"), ("index", .int 0)]

/-- Wire form `{"op":"DELETE","index":null}`. -/
def opDeleteIndexNull : JSON :=
  .obj [("op", .str "DELETE"), ("index", .null)]

/-- Wire form `{"op":"SYNC","range":[]}`. -/
def opSyncEmptyRange : JSON :=
  .obj [("op", .str "SYNC"), ("range", .arr [])]

/-- Wire form `{"op":"INSERT","range":[0,1]}`: a single-op kind with a `range` key. -/
def opInsertWithRange : JSON :=
  .obj [("op", .str "INSERT"), ("range", .arr [.int 0, .int 1])]

/-- Wire form `{"op":"SYNC"}`: a range-op kind without a `range` key. -/
def opSyncWithoutRange : JSON :=
  .obj [("op", .str "SYNC")]

/-- Wire form `{"lists":[{"ops":[{"op":"INSERT","range":[0,1]},{"op":"SYNC"}],"count":7}],"pos":"42"}`. -/
def envelopeTwoOps : JSON :=
  .obj [("lists", .arr [.obj [("ops", .arr [opInsertWithRange, opSyncWithoutRange]),
      ("count", .int 7)]]),
    ("pos", .str "42")]

/-- A decoder for an `extensions.Response` without payload: every value is accepted. -/
def noExtensions : Unit → JSON → Except Error Unit :=
  fun e _ => .ok e

/-- A receiver for `UnmarshalJSON`: the zero `Response`. -/
def zeroResponse : Response Unit :=
  ⟨[], [], (), "", ""⟩

end Sync3

namespace Extensions

/-! ## The response aggregate -/

/-- Response represents the top-level `extensions` key in the JSON response: five pointers,
nil when absent.  `β` stands for the payload types (`ToDeviceResponse`, ...), which are
declared outside `extensions.go`; a non-nil pointer is given by the payload it points to. -/
structure Response (β : Type) where
  ToDevice : Option β
  E2EE : Option β
  AccountData : Option β
  Typing : Option β
  Receipts : Option β
deriving DecidableEq, Repr

/-- A `GenericResponse` interface value as built by `fields()`: a dynamic type and a pointer of
that type, which may be nil. -/
structure GenericResponse (β : Type) where
  kind : ExtKind
  ptr : Option β

/-- Source: `func (r Response) fields() []GenericResponse`. -/
def Response.fields {β : Type} (r : Response β) : List (GenericResponse β) :=
  [⟨.ToDevice, r.ToDevice⟩, ⟨.E2EE, r.E2EE⟩, ⟨.AccountData, r.AccountData⟩,
   ⟨.Typing, r.Typing⟩, ⟨.Receipts, r.Receipts⟩]

/-- The loop of `Response.HasData`; `hasData k v isInitial` is the method `HasData(isInitial)`
of the payload `v` of the response type of kind `k`. -/
def Response.HasData.loop {β : Type} (hasData : ExtKind → β → Bool → Bool) (isInitial : Bool) :
    List (GenericResponse β) → Bool
  | [] => false
  | f :: rest =>
    match f.ptr with
    | none => loop hasData isInitial rest -- isNil(f): continue
    | some v =>
      if !hasData f.kind v isInitial then loop hasData isInitial rest -- continue
      else true

/-- Source: `func (r Response) HasData(isInitial bool) bool`. -/
def Response.HasData {β : Type} (hasData : ExtKind → β → Bool → Bool) (r : Response β)
    (isInitial : Bool) : Bool :=
  Response.HasData.loop hasData isInitial r.fields

/-- The payload a response aggregate holds for the extension of kind `k`. -/
def Response.get {β : Type} (r : Response β) : ExtKind → Option β
  | .ToDevice => r.ToDevice
  | .E2EE => r.E2EE
  | .AccountData => r.AccountData
  | .Typing => r.Typing
  | .Receipts => r.Receipts

/-! ## The dispatch handler -/

/-- Source: `type Context struct`.  The embedded `*Handler` is an address, nil when unset. -/
structure Context where
  Handler : Option Nat
  RoomIDToTimeline : List (String × List String)
  IsInitial : Bool
  UserID : String
  DeviceID : String
deriving DecidableEq, Repr

/-- The loop `for _, ext := range exts` of `Handle` and of `HandleLiveUpdate`: `invoke ext` is
the method call made on `ext` (`ProcessInitial` or `AppendLive`), acting on everything the
call can change: some outside world `ω` and the response behind `res`. -/
def Handler.invokeAll {ω β : Type}
    (invoke : GenericRequest → ω × Response β → ω × Response β) :
    List GenericRequest → ω × Response β → ω × Response β
  | [], state => state
  | ext :: exts, state => invokeAll invoke exts (invoke ext state)

/-- Source: `func (h *Handler) Handle(ctx context.Context, req Request, extCtx Context)
(res Response)`.  `handler` is the receiver's address, `heap` the request objects at entry,
`processInitial` the interface method; the result is the world after the calls and the
returned `res`, which starts as the zero `Response`.  The tracing span around each call is
left out. -/
def Handler.Handle {α ω β : Type}
    (processInitial : GenericRequest → Context → ω × Response β → ω × Response β)
    (handler : Nat) (heap : Heap α) (req : Request) (extCtx : Context) (world : ω) :
    ω × Response β :=
  let extCtx := { extCtx with Handler := some handler }
  let exts := req.EnabledExtensions heap
  Handler.invokeAll (fun ext => processInitial ext extCtx) exts
    (world, ⟨none, none, none, none, none⟩)

/-- Source: `func (h *Handler) HandleLiveUpdate(update caches.Update, req Request,
res *Response, extCtx Context)`.  `appendLive` is the interface method, `υ` the type of
updates; the result is the world after the calls and the response behind `res`. -/
def Handler.HandleLiveUpdate {α ω β υ : Type}
    (appendLive : GenericRequest → Context → υ → ω × Response β → ω × Response β)
    (handler : Nat) (heap : Heap α) (update : υ) (req : Request) (res : Response β)
    (extCtx : Context) (world : ω) : ω × Response β :=
  let extCtx := { extCtx with Handler := some handler }
  let exts := req.EnabledExtensions heap
  Handler.invokeAll (fun ext => appendLive ext extCtx update) exts (world, res)

/-- An interface method that only records the call in the world, a log of receivers and
contexts, and leaves the response alone. -/
def recordCall {β : Type} (ext : GenericRequest) (extCtx : Context)
    (state : List (GenericRequest × Context) × Response β) :
    List (GenericRequest × Context) × Response β :=
  (state.1 ++ [(ext, extCtx)], state.2)

/-! ## Calls seen from the caller, and sequences of requests -/

/-- A call `ret := R.ApplyDelta(next)` seen from the caller.  The method has a value receiver:
Go copies `R` into the method's `r`, and `setFields` writes to that copy.  The result is the
heap after the call, the caller's `R` after the call, and the returned aggregate. -/
def Request.callApplyDelta {α : Type} (mix : ExtKind → α → α → α) (h : Heap α)
    (R next : Request) : Option (Heap α × Request × Request) :=
  (Request.ApplyDelta mix h R next).map fun (h', ret) => (h', R, ret)

/-- The requests `d₁, …, dₙ` applied in order, `R = R.ApplyDelta(dᵢ)`. -/
def Request.applyAll {α : Type} (mix : ExtKind → α → α → α) :
    Heap α → Request → List Request → Option (Heap α × Request)
  | h, r, [] => some (h, r)
  | h, r, d :: ds =>
    match Request.ApplyDelta mix h r d with
    | none => none
    | some (h', r') => applyAll mix h' r' ds

/-- The enabled flag an aggregate has for the extension of kind `k`: the flag of the object
its slot points to, unspecified when the slot is nil. -/
def flagOf {α : Type} (h : Heap α) (r : Request) (k : ExtKind) : Option Bool :=
  match r.get k with
  | none => none
  | some a => (h k a).Enabled

/-- Last writer wins: the last specified flag of `flags`, or `init` when none is specified. -/
def lastWriter (init : Option Bool) (flags : List (Option Bool)) : Option Bool :=
  flags.foldl
    (fun acc flag =>
      match flag with
      | some b => some b
      | none => acc)
    init

/-- The flag each request `dᵢ` carries for kind `k` at the moment it is applied. -/
def Request.arrivingFlags {α : Type} (mix : ExtKind → α → α → α) (k : ExtKind) :
    Heap α → Request → List Request → List (Option Bool)
  | _, _, [] => []
  | h, r, d :: ds =>
    flagOf h d k ::
      match Request.ApplyDelta mix h r d with
      | none => []
      | some (h', r') => arrivingFlags mix k h' r' ds

/-- The empty aggregate. -/
def emptyRequest : Request :=
  ⟨none, none, none, none, none⟩

/-- Five interface values of the slot types, in slot order. -/
def alignedFields : List GenericRequest :=
  [⟨.ToDevice, some 3⟩, ⟨.E2EE, none⟩, ⟨.AccountData, some 0⟩, ⟨.Typing, none⟩,
   ⟨.Receipts, some 7⟩]

end Extensions

namespace Sync3

/-! ## Which rooms a response gives data about -/

/-- Source: `func IncludedRoomIDsInOps(lists []ResponseList) map[string]struct{}`.  The Go map
used as a set is a finite set of room IDs; `set[roomID] = struct{}{}` is insertion. -/
def IncludedRoomIDsInOps (lists : List ResponseList) : Finset String :=
  lists.foldl
    (fun set list =>
      list.Ops.foldl
        (fun set op => op.IncludedRoomIDs.foldl (fun set roomID => insert roomID set) set)
        set)
    ∅

/-- The rooms an op carries on the wire: every snapshot of a range op, the room of a single op
if it has one. -/
def ResponseOp.carriedRoomIDs : ResponseOp → List String
  | .range oper => oper.Rooms.map fun room => room.RoomID
  | .single oper =>
    match oper.Room with
    | none => []
    | some room => [room.RoomID]

/-- A range op of kind `SYNC` with rooms `!a` and `!b`. -/
def syncAB : ResponseOp :=
  .range ⟨"SYNC", [0, 1], [⟨"!a"⟩, ⟨"!b"⟩]⟩

/-- A range op of kind `INVALIDATE` that carries room `!a`. -/
def invalidateA : ResponseOp :=
  .range ⟨"INVALIDATE", [0, 0], [⟨"!a"⟩]⟩

/-- A range op of kind `DELETE` that carries room `!a`. -/
def rangeDeleteA : ResponseOp :=
  .range ⟨"DELETE", [0, 0], [⟨"!a"⟩]⟩

/-- A single op of kind `INVALIDATE` that carries room `!a`. -/
def singleInvalidateA : ResponseOp :=
  .single ⟨"INVALIDATE", some 0, some ⟨"!a"⟩⟩

/-- Wire form `{"op":"DELETE","range":[0,0],"rooms":[{"room_id":"!a"}]}`. -/
def opDeleteWithRange : JSON :=
  .obj [("op", .str "DELETE"), ("range", .arr [.int 0, .int 0]),
    ("rooms", .arr [.obj [("room_id", .str "!a")]])]

/-- Wire form `{"op":"INVALIDATE","index":0,"room":{"room_id":"!a"}}`. -/
def opInvalidateWithIndex : JSON :=
  .obj [("op", .str "INVALIDATE"), ("index", .int 0), ("room", .obj [("room_id", .str "!a")])]

/-! ## Decoding arbitrary bytes -/

/-- Source: `func (r *Response) UnmarshalJSON(b []byte) error` on arbitrary bytes.
`json.Unmarshal(b, &temporary)` first checks that `b` is valid JSON and returns the syntax
error before it stores anything; `parsed` is the outcome of that check. -/
def Response.UnmarshalJSON.ofBytes {ε : Type} (unmarshalExtensions : ε → JSON → Except Error ε)
    (zero : ε) (r : Response ε) (parsed : Except Error JSON) : Response ε × Option Error :=
  match parsed with
  | .error err => (r, some err)
  | .ok b => Response.UnmarshalJSON unmarshalExtensions zero r b

/-- A receiver that already holds a decoded response: one list, one room, cursor `7`. -/
def staleResponse : Response Unit :=
  ⟨[⟨[], 3⟩], [("!old", ⟨"!old"⟩)], (), "7", "s"⟩

/-- Wire form `{"pos":"42","lists":[{"ops":[{"op":"SYNC"},{"op":5}],"count":2}]}`: the second
op has a wrongly typed `op` field. -/
def envelopeBadOp : JSON :=
  .obj [("pos", .str "42"),
    ("lists", .arr [.obj [("ops", .arr [.obj [("op", .str "SYNC")], .obj [("op", .int 5)]]),
      ("count", .int 2)]])]

/-! ## The cursor -/

/-- The two errors of `strconv`: `ErrSyntax` and `ErrRange`. -/
inductive NumError where
  | ErrSyntax
  | ErrRange
deriving DecidableEq, Repr

/-- The largest `uint64`. -/
def maxUint64 : Nat := 18446744073709551615

/-- A decimal digit, `'0' <= c && c <= '9'`. -/
def isDecimalDigit (c : Char) : Bool :=
  decide ('0' ≤ c ∧ c ≤ '9')

/-- The loop of `strconv.ParseUint(s, 10, 64)` over the bytes of `s`, with `n` the value read
so far.  A character that is not a decimal digit is a syntax error; a value that leaves the
`uint64` range stops the loop at once with a range error, whatever follows. -/
def ParseUint.loop : List Char → Nat → Nat × Option NumError
  | [], n => (n, none)
  | c :: rest, n =>
    if isDecimalDigit c then
      let d := c.toNat - 48
      if n ≥ maxUint64 / 10 + 1 then
        (maxUint64, some .ErrRange) -- n*base overflows
      else
        let n1 := n * 10 + d
        if n1 > maxUint64 then
          (maxUint64, some .ErrRange) -- n+d overflows
        else loop rest n1
    else (0, some .ErrSyntax)

/-- The library call `strconv.ParseUint(s, 10, 64)`: the value and the error, `none` for nil. -/
def ParseUint (s : List Char) : Nat × Option NumError :=
  match s with
  | [] => (0, some .ErrSyntax)
  | _ => ParseUint.loop s 0

/-- The library call `strconv.ParseInt(s, 10, 64)`: the value and the error, `none` for nil.
A leading `+` or `-` is picked off, the rest goes through `ParseUint`; a syntax error returns
0, a value out of the `int64` range returns the bound of its sign with a range error. -/
def ParseInt (s : String) : Int × Option NumError :=
  match s.data with
  | [] => (0, some .ErrSyntax)
  | c :: rest =>
    let neg : Bool := decide (c = '-')
    let digits := if c = '+' ∨ c = '-' then rest else c :: rest
    match ParseUint digits with
    | (_, some .ErrSyntax) => (0, some .ErrSyntax)
    | (un, _) =>
      if !neg && decide (un ≥ 9223372036854775808) then
        (9223372036854775807, some .ErrRange)
      else if neg && decide (un > 9223372036854775808) then
        (-9223372036854775808, some .ErrRange)
      else (if neg then -(un : Int) else (un : Int), none)

/-- Source: `func (r *Response) PosInt() int64`: `p, _ := strconv.ParseInt(r.Pos, 10, 64)`;
`return p`. -/
def Response.PosInt {ε : Type} (r : Response ε) : Int :=
  (ParseInt r.Pos).1

/-- The number a string of decimal digits denotes. -/
def decimalValue (digits : List Char) : Nat :=
  digits.foldl (fun n c => n * 10 + (c.toNat - 48)) 0

/-- A response whose cursor is `pos`. -/
def withPos (pos : String) : Response Unit :=
  ⟨[], [], (), pos, ""⟩

end Sync3

namespace Extensions

/-! ## The merge, computed -/

theorem isNil_iff (v : GenericRequest) : isNil v = true ↔ v.ptr = none := by
  cases v with
  | mk kind ptr => cases ptr <;> simp [isNil]

theorem GenericRequest.applyDelta_store {α : Type} (mix : ExtKind → α → α → α) (h : Heap α)
    (k : ExtKind) (c : Nat) (k' : ExtKind) (n : Nat) :
    GenericRequest.ApplyDelta mix h k c ⟨k', some n⟩ =
      some (h.store k c (mergedObject mix k (h k c) (h k' n))) := by
  unfold GenericRequest.ApplyDelta mergedObject Enableable.ApplyDelta GenericRequest.IsEnabled
    Enableable.IsEnabled
  cases hn : (h k' n).Enabled <;> simp [hn]

theorem mergedSlot_get (r next : Request) (k : ExtKind) :
    (Request.mk (mergedSlot r.ToDevice next.ToDevice) (mergedSlot r.E2EE next.E2EE)
      (mergedSlot r.AccountData next.AccountData) (mergedSlot r.Typing next.Typing)
      (mergedSlot r.Receipts next.Receipts)).get k = mergedSlot (r.get k) (next.get k) := by
  cases k <;> rfl

theorem mergeStep_apply {α : Type} (mix : ExtKind → α → α → α) (h : Heap α) (k : ExtKind)
    (curr next : Option Nat) (k' : ExtKind) (a : Nat) :
    mergeStep mix h k curr next k' a =
      match curr, next with
      | some c, some n =>
        if k' = k ∧ a = c then mergedObject mix k (h k c) (h k n) else h k' a
      | _, _ => h k' a := by
  cases curr <;> cases next <;> simp [mergeStep, Heap.store]

theorem mergeStep_ne {α : Type} (mix : ExtKind → α → α → α) (h : Heap α) (k : ExtKind)
    (curr next : Option Nat) (k' : ExtKind) (hk : k' ≠ k) :
    mergeStep mix h k curr next k' = h k' := by
  funext a
  rw [mergeStep_apply]
  cases curr <;> cases next <;> simp [hk]

theorem mergeStep_same {α : Type} (mix : ExtKind → α → α → α) (h : Heap α) (k : ExtKind)
    (curr next : Option Nat) (a : Nat) :
    mergeStep mix h k curr next k a =
      match curr, next with
      | some c, some n => if a = c then mergedObject mix k (h k c) (h k n) else h k a
      | _, _ => h k a := by
  rw [mergeStep_apply]
  cases curr <;> cases next <;> simp

theorem mergedHeap_apply {α : Type} (mix : ExtKind → α → α → α) (h : Heap α)
    (r next : Request) (k : ExtKind) (a : Nat) :
    mergedHeap mix h r next k a =
      match r.get k, next.get k with
      | some c, some n => if a = c then mergedObject mix k (h k c) (h k n) else h k a
      | _, _ => h k a := by
  cases k <;> simp only [mergedHeap, Request.get] <;>
    simp only [mergeStep_same, mergeStep_ne, ne_eq, reduceCtorEq, not_false_eq_true]

theorem Request.applyDelta_loop_cons {α : Type} (mix : ExtKind → α → α → α) (h : Heap α)
    (k : ExtKind) (c n : Option Nat) (cs ns : List GenericRequest) (hc : Bool) :
    Request.ApplyDelta.loop mix h (⟨k, c⟩ :: cs) (⟨k, n⟩ :: ns) hc =
      (Request.ApplyDelta.loop mix (mergeStep mix h k c n) cs ns (hc || n.isSome)).map
        fun p => (p.1, ⟨k, mergedSlot c n⟩ :: p.2.1, p.2.2) := by
  cases c <;> cases n <;>
    simp [Request.ApplyDelta.loop, isNil, GenericRequest.applyDelta_store, mergeStep, mergedSlot]

theorem Request.applyDelta_loop_nil {α : Type} (mix : ExtKind → α → α → α) (h : Heap α)
    (hc : Bool) : Request.ApplyDelta.loop mix h [] [] hc = some (h, [], hc) := by
  simp [Request.ApplyDelta.loop]

/-- The merge never panics; its heap and its returned aggregate in closed form. -/
theorem Request.applyDelta_closed {α : Type} (mix : ExtKind → α → α → α) (h : Heap α)
    (r next : Request) :
    Request.ApplyDelta mix h r next =
      some (mergedHeap mix h r next,
        ⟨mergedSlot r.ToDevice next.ToDevice, mergedSlot r.E2EE next.E2EE,
         mergedSlot r.AccountData next.AccountData, mergedSlot r.Typing next.Typing,
         mergedSlot r.Receipts next.Receipts⟩) := by
  obtain ⟨r0, r1, r2, r3, r4⟩ := r
  obtain ⟨n0, n1, n2, n3, n4⟩ := next
  simp only [Request.ApplyDelta, Request.fields, Request.applyDelta_loop_cons,
    Request.applyDelta_loop_nil, mergedHeap]
  cases n0 <;> cases n1 <;> cases n2 <;> cases n3 <;> cases n4 <;>
    simp [Request.setFields, GenericRequest.assert, mergedSlot]

/-! ## The enabled extensions, computed -/

theorem Request.enabledExtensions_loop_eq {α : Type} (h : Heap α) (fs exts : List GenericRequest) :
    Request.EnabledExtensions.loop h fs exts = exts ++ fs.filter (explicitlyOn h) := by
  induction fs generalizing exts with
  | nil => simp [Request.EnabledExtensions.loop]
  | cons f rest ih =>
    obtain ⟨k, p⟩ := f
    cases p with
    | none => simp [Request.EnabledExtensions.loop, ih, explicitlyOn]
    | some a =>
      cases he : (h k a).Enabled with
      | none =>
        simp [Request.EnabledExtensions.loop, ih, explicitlyOn, ExtensionEnabled,
          Enableable.IsEnabled, he]
      | some b =>
        cases b <;>
          simp [Request.EnabledExtensions.loop, ih, explicitlyOn, ExtensionEnabled,
            Enableable.IsEnabled, he]

theorem Request.enabledExtensions_filter {α : Type} (h : Heap α) (r : Request) :
    Request.EnabledExtensions h r = r.fields.filter (explicitlyOn h) := by
  simp [Request.EnabledExtensions, Request.enabledExtensions_loop_eq]

/-- An extension is among the enabled ones exactly when its slot points to an object whose
flag is explicitly true. -/
theorem Request.enabled_kind_iff {α : Type} (h : Heap α) (r : Request) (k : ExtKind) :
    (∃ f ∈ Request.EnabledExtensions h r, f.kind = k) ↔
      ∃ a, r.get k = some a ∧ (h k a).Enabled = some true := by
  rw [Request.enabledExtensions_filter]
  obtain ⟨r0, r1, r2, r3, r4⟩ := r
  constructor
  · rintro ⟨f, hf, rfl⟩
    simp only [Request.fields, List.mem_filter, List.mem_cons, List.mem_singleton,
      List.mem_nil_iff, or_false] at hf
    obtain ⟨hf | hf | hf | hf | hf, hon⟩ := hf <;> subst hf <;>
      simp only [explicitlyOn] at hon <;> split at hon <;>
      simp_all [Request.get]
  · rintro ⟨a, ha, hon⟩
    refine ⟨⟨k, some a⟩, ?_, rfl⟩
    simp only [Request.fields, List.mem_filter, List.mem_cons, List.mem_singleton,
      List.mem_nil_iff, or_false]
    refine ⟨?_, by simp [explicitlyOn, hon]⟩
    cases k <;> simp_all [Request.get]

/-- The sticky to-device scenario: `enabled: true, limit: 5` followed by `limit: 10` leaves the
stored object at `enabled: true, limit: 10`, and the aggregate still points to it. -/
theorem scenario_sticky_to_device :
    ∃ h', Request.ApplyDelta stickyLimit scenarioHeap scenarioCurr scenarioNext
        = some (h', scenarioCurr) ∧
      h' .ToDevice 0 = { Enabled := some true, params := 10 } := by
  refine ⟨_, Request.applyDelta_closed _ _ _ _, ?_⟩
  rw [mergedHeap_apply]
  rfl

/-! ## The claims about the request aggregate -/

/-- C1: `Request.ApplyDelta(next)` always returns, and for each of the five slots: if
`next`'s slot is nil the result slot is `R`'s slot and no object of that type changes; if
`next`'s slot is non-nil and `R`'s is nil the result slot is `next`'s pointer and no object of
that type changes; if both are non-nil the result slot is `R`'s pointer and the object behind
it has been merged in place: its flag is `next`'s flag when `next` sets it and its own flag
otherwise, its extension-specific part is the mix of the two, and no other object changes. -/
theorem Request.applyDelta_slots {α : Type} (mix : ExtKind → α → α → α) (h : Heap α)
    (r next : Request) :
    ∃ h' r', Request.ApplyDelta mix h r next = some (h', r') ∧
      ∀ k : ExtKind,
        (next.get k = none → r'.get k = r.get k ∧ ∀ a, h' k a = h k a) ∧
        (∀ n, next.get k = some n → r.get k = none →
          r'.get k = some n ∧ ∀ a, h' k a = h k a) ∧
        (∀ n c, next.get k = some n → r.get k = some c →
          r'.get k = some c ∧
          (h' k c).Enabled =
            (match (h k n).Enabled with
              | some b => some b
              | none => (h k c).Enabled) ∧
          (h' k c).params = mix k (h k c).params (h k n).params ∧
          ∀ a, a ≠ c → h' k a = h k a) := by
  refine ⟨_, _, Request.applyDelta_closed mix h r next, fun k => ⟨?_, ?_, ?_⟩⟩
  · intro hn
    refine ⟨by rw [mergedSlot_get, hn]; rfl, fun a => ?_⟩
    rw [mergedHeap_apply, hn]
    cases r.get k <;> rfl
  · intro n hn hc
    refine ⟨by rw [mergedSlot_get, hn, hc]; rfl, fun a => ?_⟩
    rw [mergedHeap_apply, hn, hc]
  · intro n c hn hc
    refine ⟨by rw [mergedSlot_get, hn, hc]; rfl, ?_, ?_, fun a ha => ?_⟩
    · rw [mergedHeap_apply, hn, hc]
      simp [mergedObject]
    · rw [mergedHeap_apply, hn, hc]
      simp [mergedObject]
    · rw [mergedHeap_apply, hn, hc]
      simp [ha]

/-- C2: when `next` does not carry extension `k`, or carries it with the enabled flag
unspecified, `k` is among the enabled extensions after the merge exactly when it was before. -/
theorem Request.applyDelta_enabled_sticky {α : Type} (mix : ExtKind → α → α → α) (h : Heap α)
    (r next : Request) (k : ExtKind)
    (hk : next.get k = none ∨ ∃ n, next.get k = some n ∧ (h k n).Enabled = none) :
    ∃ h' r', Request.ApplyDelta mix h r next = some (h', r') ∧
      ((∃ f ∈ Request.EnabledExtensions h' r', f.kind = k) ↔
        ∃ f ∈ Request.EnabledExtensions h r, f.kind = k) := by
  refine ⟨_, _, Request.applyDelta_closed mix h r next, ?_⟩
  rw [Request.enabled_kind_iff, Request.enabled_kind_iff, mergedSlot_get]
  simp only [mergedHeap_apply]
  rcases hk with hn | ⟨n, hn, hoff⟩
  · rw [hn]
    cases hc : r.get k <;> simp [mergedSlot]
  · rw [hn]
    cases hc : r.get k with
    | none => simp [mergedSlot, hoff]
    | some c => simp [mergedSlot, mergedObject, hoff]

/-- C2, on the scenario: `to_device` enabled, then a `to_device` delta without a flag. -/
theorem Request.applyDelta_enabled_sticky_witness :
    (scenarioNext.get .ToDevice = none ∨
      ∃ n, scenarioNext.get .ToDevice = some n ∧ (scenarioHeap .ToDevice n).Enabled = none) ∧
    (∃ f ∈ Request.EnabledExtensions scenarioHeap scenarioCurr, f.kind = .ToDevice) ∧
    ∃ h' r', Request.ApplyDelta stickyLimit scenarioHeap scenarioCurr scenarioNext
        = some (h', r') ∧
      ((∃ f ∈ Request.EnabledExtensions h' r', f.kind = .ToDevice) ↔
        ∃ f ∈ Request.EnabledExtensions scenarioHeap scenarioCurr, f.kind = .ToDevice) :=
  ⟨Or.inr ⟨1, rfl, rfl⟩, ⟨⟨.ToDevice, some 0⟩, by decide, rfl⟩,
    Request.applyDelta_enabled_sticky stickyLimit scenarioHeap scenarioCurr scenarioNext
      .ToDevice (Or.inr ⟨1, rfl, rfl⟩)⟩

/-- C3: merging an incoming aggregate whose five slots are all nil returns the aggregate it
was given and leaves every object as it was. -/
theorem Request.applyDelta_all_nil {α : Type} (mix : ExtKind → α → α → α) (h : Heap α)
    (r : Request) :
    Request.ApplyDelta mix h r ⟨none, none, none, none, none⟩ = some (h, r) := by
  rw [Request.applyDelta_closed]
  rfl

/-- C4 fails as stated on an incoming request that is an interface holding a nil pointer:
`isNil` counts it as absent, the guard `gnext == nil` does not catch it, and the call panics
in `gnext.IsEnabled()` instead of leaving the flag as it was. -/
theorem Enableable.applyDelta_nil_pointer_counterexample :
    isNil ⟨.ToDevice, none⟩ = true ∧
      Enableable.ApplyDelta scenarioHeap ⟨some true⟩ (some ⟨.ToDevice, none⟩) = none :=
  ⟨rfl, rfl⟩

/-- C4, amended: for an incoming request that is the nil interface, `Enableable.ApplyDelta`
returns and leaves the flag as it was; for one that refers to a request object it returns,
and the flag is that object's enabled value when it is specified and the old flag otherwise:
an unspecified value leaves the receiver unchanged, and the result is unspecified only when
both are. -/
theorem Enableable.applyDelta_flag {α : Type} (h : Heap α) (a : Enableable) :
    a.ApplyDelta h none = some a ∧
      ∀ (k : ExtKind) (n : Nat), ∃ a', a.ApplyDelta h (some ⟨k, some n⟩) = some a' ∧
        a'.Enabled =
          (match (h k n).IsEnabled with
            | some b => some b
            | none => a.Enabled) ∧
        ((h k n).IsEnabled = none → a' = a) ∧
        (a'.Enabled = none ↔ a.Enabled = none ∧ (h k n).IsEnabled = none) := by
  refine ⟨rfl, fun k n => ?_⟩
  cases hn : (h k n).Enabled <;>
    simp [Enableable.ApplyDelta, GenericRequest.IsEnabled, Enableable.IsEnabled, hn]

/-- C5: `EnabledExtensions` returns exactly the slots that hold a non-nil pointer to an object
whose flag is explicitly true, each at most once, in the declaration order of the slots. -/
theorem Request.enabledExtensions_exact {α : Type} (h : Heap α) (r : Request) :
    (∀ f, f ∈ Request.EnabledExtensions h r ↔
      ∃ a, f.ptr = some a ∧ r.get f.kind = some a ∧ (h f.kind a).Enabled = some true) ∧
    (Request.EnabledExtensions h r).Nodup ∧
    ((Request.EnabledExtensions h r).map fun f => f.kind).Sublist declarationOrder ∧
    Request.EnabledExtensions h r = r.fields.filter (explicitlyOn h) := by
  have hsub : ((Request.EnabledExtensions h r).map fun f => f.kind).Sublist declarationOrder := by
    rw [Request.enabledExtensions_filter]
    exact (List.filter_sublist _).map _
  have hnd : ((Request.EnabledExtensions h r).map fun f => f.kind).Nodup :=
    hsub.nodup (by decide)
  refine ⟨fun f => ?_, hnd.of_map _, hsub, Request.enabledExtensions_filter h r⟩
  rw [Request.enabledExtensions_filter]
  obtain ⟨r0, r1, r2, r3, r4⟩ := r
  obtain ⟨k, p⟩ := f
  simp only [Request.fields, List.mem_filter, List.mem_cons, List.mem_singleton,
    List.mem_nil_iff, or_false, explicitlyOn, GenericRequest.mk.injEq]
  cases p with
  | none => simp
  | some a => cases k <;> simp [Request.get, eq_comm]

end Extensions

namespace Sync3

/-! ## The decode loops -/

theorem decodeOp_isRange (raw : JSON) (op : ResponseOp) (h : decodeOp raw = .ok op) :
    op.isRange = gjsonExists raw "range" := by
  unfold decodeOp at h
  split at h
  · rename_i hr
    split at h
    · cases h
    · cases h; simp [ResponseOp.isRange, hr]
  · rename_i hr
    split at h
    · cases h
    · cases h; simp [ResponseOp.isRange, hr]

theorem unmarshalJSON_ops_spec (raws : List JSON) (acc out : List ResponseOp)
    (h : Response.UnmarshalJSON.ops raws acc = .ok out) :
    ∃ decoded, out = acc ++ decoded ∧
      List.Forall₂ (fun op raw => decodeOp raw = .ok op) decoded raws := by
  induction raws generalizing acc with
  | nil =>
    simp only [Response.UnmarshalJSON.ops, Except.ok.injEq] at h
    exact ⟨[], by simp [h], List.Forall₂.nil⟩
  | cons raw rest ih =>
    simp only [Response.UnmarshalJSON.ops] at h
    split at h
    · cases h
    · rename_i oper hd
      obtain ⟨decoded, hout, hall⟩ := ih _ h
      exact ⟨oper :: decoded, by simp [hout], List.Forall₂.cons hd hall⟩

theorem unmarshalJSON_lists_spec (tmp : List TemporaryList) (i : Nat)
    (rLists out : List ResponseList)
    (h : Response.UnmarshalJSON.lists tmp i rLists = (out, none))
    (hlen : i + tmp.length ≤ rLists.length) :
    out.length = rLists.length ∧ (∀ j, j < i → out[j]? = rLists[j]?) ∧
      ∀ j t, tmp[j]? = some t →
        ∃ ops, Response.UnmarshalJSON.ops t.Ops.elems [] = .ok ops ∧
          out[i + j]? = some ⟨ops, t.Count⟩ := by
  induction tmp generalizing i rLists with
  | nil =>
    simp only [Response.UnmarshalJSON.lists, Prod.mk.injEq, and_true] at h
    subst h
    simp
  | cons l rest ih =>
    simp only [Response.UnmarshalJSON.lists] at h
    split at h
    · simp at h
    · rename_i listOps hops
      simp only [List.length_cons] at hlen
      obtain ⟨h1, h2, h3⟩ := ih (i + 1) _ h (by simp; omega)
      refine ⟨by simpa using h1, fun j hj => ?_, fun j t hj => ?_⟩
      · rw [h2 j (by omega), List.getElem?_set_ne (by omega)]
      · cases j with
        | zero =>
          simp only [List.getElem?_cons_zero, Option.some.injEq] at hj
          subst hj
          refine ⟨listOps, hops, ?_⟩
          rw [Nat.add_zero, h2 i (by omega), List.getElem?_set_eq_of_lt _ (by omega)]
        | succ j =>
          simp only [List.getElem?_cons_succ] at hj
          obtain ⟨ops, ho, hg⟩ := h3 j t hj
          exact ⟨ops, ho, by rw [← hg]; congr 1; omega⟩

/-! ## Keys and fields -/

theorem matchesField_unique (a b key : String) (ha : matchesField a key = true)
    (hb : matchesField b key = true) : a = b := by
  simp only [matchesField, decide_eq_true_eq] at ha hb
  exact String.ext (ha.symm.trans hb)

theorem matchesField_ne (a b key : String) (hab : a ≠ b) (ha : matchesField a key = true) :
    matchesField b key = false := by
  cases hb : matchesField b key with
  | false => rfl
  | true => exact absurd (matchesField_unique a b key ha hb) hab

/-! ## The index of a single op -/

theorem single_index_after (ms : List (String × JSON)) (s v : ResponseOpSingle)
    (h : unmarshalMembers ResponseOpSingle.setField ms s = .ok v) :
    IntPtrAfter s.Index (lastMember "index" ms) v.Index := by
  induction ms generalizing s with
  | nil =>
    simp only [unmarshalMembers, Except.ok.injEq] at h
    subst h
    simp [lastMember, IntPtrAfter]
  | cons m rest ih =>
    obtain ⟨key, value⟩ := m
    simp only [unmarshalMembers] at h
    split at h
    · cases h
    · rename_i s' hs
      have hrest := ih s' h
      simp only [lastMember]
      cases hl : lastMember "index" rest with
      | some x =>
        rw [hl] at hrest
        cases x <;> exact hrest
      | none =>
        rw [hl] at hrest
        simp only [IntPtrAfter] at hrest
        simp only [ResponseOpSingle.setField] at hs
        cases hidx : matchesField "index" key with
        | true =>
          have hop : matchesField "op" key = false :=
            matchesField_ne "index" "op" key (by decide) hidx
          simp only [hop, hidx, if_true, Bool.false_eq_true, if_false] at hs
          cases value with
          | null =>
            simp only [unmarshalIntPtr, Except.map] at hs
            cases hs
            simp [IntPtrAfter, hrest]
          | int n =>
            simp only [unmarshalIntPtr, unmarshalInt] at hs
            cases hn : inInt64 n with
            | true =>
              simp only [hn, if_true, Except.map] at hs
              cases hs
              simp [IntPtrAfter, hrest, hn]
            | false =>
              simp only [hn, Bool.false_eq_true, if_false, Except.map] at hs
              cases hs
          | _ =>
            simp only [unmarshalIntPtr, unmarshalInt, Except.map] at hs
            cases hs
        | false =>
          simp only [hidx, Bool.false_eq_true, if_false] at hs
          have hkeep : s'.Index = s.Index := by
            split at hs
            · cases hv : unmarshalString s.Operation value <;> rw [hv] at hs <;>
                simp only [Except.map] at hs <;> cases hs
              rfl
            · split at hs
              · cases hv : unmarshalRoomPtr s.Room value <;> rw [hv] at hs <;>
                  simp only [Except.map] at hs <;> cases hs
                rfl
              · cases hs; rfl
          simp [IntPtrAfter, hrest, hkeep]

/-! ## Decoded values fit their Go types -/

theorem unmarshalMembers_invariant {σ : Type} (setField : σ → String → JSON → Except Error σ)
    (P : σ → Prop) (hstep : ∀ s key value s', P s → setField s key value = .ok s' → P s')
    (ms : List (String × JSON)) (s v : σ) (hs : P s)
    (h : unmarshalMembers setField ms s = .ok v) : P v := by
  induction ms generalizing s with
  | nil =>
    simp only [unmarshalMembers, Except.ok.injEq] at h
    exact h ▸ hs
  | cons m rest ih =>
    obtain ⟨key, value⟩ := m
    simp only [unmarshalMembers] at h
    split at h
    · cases h
    · rename_i s' hset
      exact ih s' (hstep s key value s' hs hset) h

theorem unmarshalStruct_invariant {σ : Type} (setField : σ → String → JSON → Except Error σ)
    (P : σ → Prop) (hstep : ∀ s key value s', P s → setField s key value = .ok s' → P s')
    (json : JSON) (s v : σ) (hs : P s) (h : unmarshalStruct setField s json = .ok v) : P v := by
  cases json with
  | null =>
    simp only [unmarshalStruct, Except.ok.injEq] at h
    exact h ▸ hs
  | obj ms => exact unmarshalMembers_invariant setField P hstep ms s v hs h
  | _ => simp [unmarshalStruct] at h

theorem except_map_ok {α β : Type} (f : α → β) (x : Except Error α) (y : β)
    (h : x.map f = .ok y) : ∃ a, x = .ok a ∧ y = f a := by
  cases x with
  | error e => simp [Except.map] at h
  | ok a =>
    simp only [Except.map, Except.ok.injEq] at h
    exact ⟨a, rfl, h.symm⟩

theorem unmarshalInt_inInt64 (cur : Int) (json : JSON) (n : Int) (hcur : inInt64 cur = true)
    (h : unmarshalInt cur json = .ok n) : inInt64 n = true := by
  cases json with
  | null =>
    simp only [unmarshalInt, Except.ok.injEq] at h
    exact h ▸ hcur
  | int m =>
    simp only [unmarshalInt] at h
    split at h
    · rename_i hm
      cases h
      exact hm
    · cases h
  | _ => simp [unmarshalInt] at h

theorem unmarshalElems_int_inInt64 (elems : List JSON) (backing ns : List Int)
    (hb : ∀ n ∈ backing, inInt64 n = true)
    (h : unmarshalElems unmarshalInt 0 backing elems = .ok ns) : ∀ n ∈ ns, inInt64 n = true := by
  induction elems generalizing backing ns with
  | nil =>
    simp only [unmarshalElems, Except.ok.injEq] at h
    subst h
    simp
  | cons j rest ih =>
    simp only [unmarshalElems] at h
    split at h
    · cases h
    · rename_i v hv
      split at h
      · cases h
      · rename_i vs hvs
        cases h
        intro n hn
        rcases List.mem_cons.mp hn with rfl | hn
        · refine unmarshalInt_inInt64 _ j _ ?_ hv
          cases backing with
          | nil => decide
          | cons b bs => exact hb b (List.mem_cons_self _ _)
        · exact ih backing.tail vs (fun m hm => hb m (List.mem_of_mem_tail hm)) hvs n hn

theorem unmarshalSlice_int_inInt64 (cur out : Slice Int) (value : JSON)
    (hcur : ∀ n ∈ cur.elems ++ cur.spare, inInt64 n = true)
    (h : unmarshalSlice unmarshalInt 0 cur value = .ok out) :
    ∀ n ∈ out.elems ++ out.spare, inInt64 n = true := by
  cases value with
  | null =>
    simp only [unmarshalSlice, Except.ok.injEq] at h
    subst h
    simp [Slice.nil]
  | arr elems =>
    cases elems with
    | nil =>
      simp only [unmarshalSlice, Except.ok.injEq] at h
      subst h
      simp [Slice.nil]
    | cons j js =>
      simp only [unmarshalSlice] at h
      obtain ⟨vs, hvs, rfl⟩ := except_map_ok _ _ _ h
      intro n hn
      rcases List.mem_append.mp hn with hn | hn
      · exact unmarshalElems_int_inInt64 _ _ _ hcur hvs n hn
      · exact hcur n (List.mem_of_mem_drop hn)
  | _ => simp [unmarshalSlice] at h

theorem range_decoded_inInt64 (op : JSON) (v : ResponseOpRange)
    (h : ResponseOpRange.unmarshal op = .ok v) : ∀ n ∈ v.Range, inInt64 n = true := by
  obtain ⟨d, hd, rfl⟩ := except_map_ok _ _ _ h
  have hall : ∀ n ∈ d.Range.elems ++ d.Range.spare, inInt64 n = true := by
    refine unmarshalStruct_invariant ResponseOpRange.setField
      (fun s => ∀ n ∈ s.Range.elems ++ s.Range.spare, inInt64 n = true) ?_ op
      ⟨"", Slice.nil, Slice.nil⟩ d (by simp [Slice.nil]) hd
    intro s key value s' hs hset
    simp only [ResponseOpRange.setField] at hset
    split at hset
    · obtain ⟨a, -, rfl⟩ := except_map_ok _ _ _ hset
      exact hs
    · split at hset
      · obtain ⟨a, ha, rfl⟩ := except_map_ok _ _ _ hset
        exact unmarshalSlice_int_inInt64 _ _ _ hs ha
      · split at hset
        · obtain ⟨a, -, rfl⟩ := except_map_ok _ _ _ hset
          exact hs
        · cases hset
          exact hs
  intro n hn
  exact hall n (List.mem_append_left _ hn)

theorem single_decoded_inInt64 (op : JSON) (v : ResponseOpSingle)
    (h : ResponseOpSingle.unmarshal op = .ok v) : ∀ k, v.Index = some k → inInt64 k = true := by
  refine unmarshalStruct_invariant ResponseOpSingle.setField
    (fun s => ∀ k, s.Index = some k → inInt64 k = true) ?_ op ⟨"", none, none⟩ v (by simp) h
  intro s key value s' hs hset
  simp only [ResponseOpSingle.setField] at hset
  split at hset
  · obtain ⟨a, -, rfl⟩ := except_map_ok _ _ _ hset
    exact hs
  · split at hset
    · obtain ⟨a, ha, rfl⟩ := except_map_ok _ _ _ hset
      intro k hk
      simp only at hk
      subst hk
      cases value with
      | null => simp [unmarshalIntPtr] at ha
      | int m =>
        simp only [unmarshalIntPtr] at ha
        obtain ⟨b, hb, hbk⟩ := except_map_ok _ _ _ ha
        cases hbk
        refine unmarshalInt_inInt64 _ _ _ ?_ hb
        cases hi : s.Index with
        | none => decide
        | some i => simpa using hs i hi
      | _ => simp [unmarshalIntPtr, unmarshalInt, Except.map] at ha
    · split at hset
      · obtain ⟨a, -, rfl⟩ := except_map_ok _ _ _ hset
        exact hs
      · cases hset
        exact hs

end Sync3

namespace Sync3

/-! ## A struct field and the members that select it -/

theorem lastMember_eq_getLast (name : String) (ms : List (String × JSON)) :
    lastMember name ms = (selected name ms).getLast? := by
  induction ms with
  | nil => rfl
  | cons m rest ih =>
    obtain ⟨key, value⟩ := m
    have hsel : selected name ((key, value) :: rest) =
        if matchesField name key then value :: selected name rest else selected name rest := by
      cases hm : matchesField name key <;> simp [selected, List.filter_cons, hm]
    rw [hsel]
    simp only [lastMember, ih]
    cases hs : selected name rest with
    | nil => cases hm : matchesField name key <;> simp
    | cons a as =>
      cases hl : (a :: as).getLast? with
      | none => simp at hl
      | some v =>
        cases hm : matchesField name key
        · simp [hl]
        · simp [List.getLast?_cons_cons, hl]

/-- With at most one member selecting the field, that member is the only value decoded. -/
theorem selected_of_once (name : String) (ms : List (String × JSON))
    (h : (selected name ms).length ≤ 1) :
    selected name ms = (lastMember name ms).toList := by
  rw [lastMember_eq_getLast]
  cases hs : selected name ms with
  | nil => rfl
  | cons a as =>
    cases as with
    | nil => rfl
    | cons b bs =>
      rw [hs] at h
      simp at h

/-- A field of a struct after an object has been decoded into it: every member that selects
the field has been decoded into it, in order, and no other member has touched it. -/
theorem unmarshalMembers_field {σ φ : Type} (setField : σ → String → JSON → Except Error σ)
    (name : String) (get : σ → φ) (dec : φ → JSON → Except Error φ)
    (hstep : ∀ s key value s', setField s key value = .ok s' →
      (matchesField name key = true → dec (get s) value = .ok (get s')) ∧
      (matchesField name key = false → get s' = get s))
    (ms : List (String × JSON)) (s v : σ) (h : unmarshalMembers setField ms s = .ok v) :
    decodeEach dec (get s) (selected name ms) = .ok (get v) := by
  induction ms generalizing s with
  | nil =>
    simp only [unmarshalMembers, Except.ok.injEq] at h
    subst h
    rfl
  | cons m rest ih =>
    obtain ⟨key, value⟩ := m
    simp only [unmarshalMembers] at h
    split at h
    · cases h
    · rename_i s' hs
      have hrest := ih s' h
      obtain ⟨hyes, hno⟩ := hstep s key value s' hs
      cases hm : matchesField name key with
      | true => simp [selected, hm, decodeEach, hyes hm] at hrest ⊢; exact hrest
      | false => simp [selected, hm, hno hm] at hrest ⊢; exact hrest

theorem unmarshalElems_zero {τ : Type} (elem : τ → JSON → Except Error τ) (zero : τ)
    (js : List JSON) (vs : List τ) (h : unmarshalElems elem zero [] js = .ok vs) :
    List.Forall₂ (fun v j => elem zero j = .ok v) vs js := by
  induction js generalizing vs with
  | nil =>
    simp only [unmarshalElems, Except.ok.injEq] at h
    subst h
    exact List.Forall₂.nil
  | cons j rest ih =>
    simp only [unmarshalElems, List.headD_nil, List.tail_nil] at h
    split at h
    · cases h
    · rename_i v hv
      split at h
      · cases h
      · rename_i vs' hvs
        cases h
        exact List.Forall₂.cons hv (ih vs' hvs)

/-- A slice decoded once, from nil: one element per element of the array, each decoded from
a zero value; no element when the member is `null`. -/
theorem unmarshalSlice_nil {τ : Type} (elem : τ → JSON → Except Error τ) (zero : τ)
    (value : JSON) (out : Slice τ) (h : unmarshalSlice elem zero Slice.nil value = .ok out) :
    List.Forall₂ (fun v j => elem zero j = .ok v) out.elems (arrayElems (some value)) := by
  cases value with
  | null =>
    simp only [unmarshalSlice, Except.ok.injEq] at h
    subst h
    exact List.Forall₂.nil
  | arr elems =>
    cases elems with
    | nil =>
      simp only [unmarshalSlice, Except.ok.injEq] at h
      subst h
      exact List.Forall₂.nil
    | cons j js =>
      simp only [unmarshalSlice, Slice.nil, List.append_nil] at h
      obtain ⟨vs, hvs, rfl⟩ := except_map_ok _ _ _ h
      exact unmarshalElems_zero elem zero _ vs hvs
  | _ => simp [unmarshalSlice] at h

/-- What a field holds after the members of an object were decoded into a struct, when at
most one member selects the field: the zero value decoded once from that member, or the value
it had when there is none. -/
theorem decodeEach_once {φ : Type} (dec : φ → JSON → Except Error φ) (cur out : φ)
    (name : String) (ms : List (String × JSON)) (honce : (selected name ms).length ≤ 1)
    (h : decodeEach dec cur (selected name ms) = .ok out) :
    match lastMember name ms with
    | none => out = cur
    | some value => dec cur value = .ok out := by
  rw [selected_of_once name ms honce] at h
  cases hl : lastMember name ms with
  | none =>
    rw [hl] at h
    simp only [Option.toList, decodeEach, Except.ok.injEq] at h
    exact h.symm
  | some value =>
    rw [hl] at h
    simp only [Option.toList, decodeEach] at h
    split at h
    · cases h
    · rename_i cur' hc
      simp only [Except.ok.injEq] at h
      subst h
      exact hc

/-! ## The lists of the envelope -/

theorem TemporaryList.setField_ops (s : TemporaryList) (key : String) (value : JSON)
    (s' : TemporaryList) (h : TemporaryList.setField s key value = .ok s') :
    (matchesField "ops" key = true →
      unmarshalSlice (fun _ raw => .ok raw) .null s.Ops value = .ok s'.Ops) ∧
    (matchesField "ops" key = false → s'.Ops = s.Ops) := by
  unfold TemporaryList.setField at h
  split at h
  · rename_i hk
    obtain ⟨v, hv, rfl⟩ := except_map_ok _ _ _ h
    exact ⟨fun _ => hv, fun hn => by simp [hk] at hn⟩
  · rename_i hk
    refine ⟨fun hy => absurd hy hk, fun _ => ?_⟩
    split at h
    · obtain ⟨v, -, rfl⟩ := except_map_ok _ _ _ h
      rfl
    · cases h
      rfl

theorem TemporaryList.setField_count (s : TemporaryList) (key : String) (value : JSON)
    (s' : TemporaryList) (h : TemporaryList.setField s key value = .ok s') :
    (matchesField "count" key = true → unmarshalInt s.Count value = .ok s'.Count) ∧
    (matchesField "count" key = false → s'.Count = s.Count) := by
  unfold TemporaryList.setField at h
  split at h
  · rename_i hk
    obtain ⟨v, -, rfl⟩ := except_map_ok _ _ _ h
    exact ⟨fun hy => absurd hy (by
      rw [matchesField_ne "ops" "count" key (by decide) hk]; simp), fun _ => rfl⟩
  · split at h
    · rename_i hk
      obtain ⟨v, hv, rfl⟩ := except_map_ok _ _ _ h
      exact ⟨fun _ => hv, fun hn => by simp [hk] at hn⟩
    · rename_i hk
      cases h
      exact ⟨fun hy => absurd hy hk, fun _ => rfl⟩

theorem Temporary.setField_lists {ε : Type} (unmarshalExtensions : ε → JSON → Except Error ε)
    (s : Temporary ε) (key : String) (value : JSON) (s' : Temporary ε)
    (h : Temporary.setField unmarshalExtensions s key value = .ok s') :
    (matchesField "lists" key = true →
      unmarshalSlice (unmarshalStruct TemporaryList.setField) ⟨Slice.nil, 0⟩ s.Lists value =
        .ok s'.Lists) ∧
    (matchesField "lists" key = false → s'.Lists = s.Lists) := by
  unfold Temporary.setField at h
  split at h
  · rename_i hk
    obtain ⟨v, -, rfl⟩ := except_map_ok _ _ _ h
    exact ⟨fun hy => absurd hy (by
      rw [matchesField_ne "rooms" "lists" key (by decide) hk]; simp), fun _ => rfl⟩
  · split at h
    · rename_i hk
      obtain ⟨v, hv, rfl⟩ := except_map_ok _ _ _ h
      exact ⟨fun _ => hv, fun hn => by simp [hk] at hn⟩
    · rename_i hk
      refine ⟨fun hy => absurd hy hk, fun _ => ?_⟩
      split at h
      · obtain ⟨v, -, rfl⟩ := except_map_ok _ _ _ h
        rfl
      · split at h
        · obtain ⟨v, -, rfl⟩ := except_map_ok _ _ _ h
          rfl
        · split at h
          · obtain ⟨v, -, rfl⟩ := except_map_ok _ _ _ h
            rfl
          · cases h
            rfl

theorem Temporary.setField_pos {ε : Type} (unmarshalExtensions : ε → JSON → Except Error ε)
    (s : Temporary ε) (key : String) (value : JSON) (s' : Temporary ε)
    (h : Temporary.setField unmarshalExtensions s key value = .ok s') :
    (matchesField "pos" key = true → unmarshalString s.Pos value = .ok s'.Pos) ∧
    (matchesField "pos" key = false → s'.Pos = s.Pos) := by
  unfold Temporary.setField at h
  split at h
  · rename_i hk
    obtain ⟨v, -, rfl⟩ := except_map_ok _ _ _ h
    exact ⟨fun hy => absurd hy (by
      rw [matchesField_ne "rooms" "pos" key (by decide) hk]; simp), fun _ => rfl⟩
  · split at h
    · rename_i hk
      obtain ⟨v, -, rfl⟩ := except_map_ok _ _ _ h
      exact ⟨fun hy => absurd hy (by
        rw [matchesField_ne "lists" "pos" key (by decide) hk]; simp), fun _ => rfl⟩
    · split at h
      · rename_i hk
        obtain ⟨v, -, rfl⟩ := except_map_ok _ _ _ h
        exact ⟨fun hy => absurd hy (by
          rw [matchesField_ne "extensions" "pos" key (by decide) hk]; simp), fun _ => rfl⟩
      · split at h
        · rename_i hk
          obtain ⟨v, hv, rfl⟩ := except_map_ok _ _ _ h
          exact ⟨fun _ => hv, fun hn => by simp [hk] at hn⟩
        · rename_i hk
          refine ⟨fun hy => absurd hy hk, fun _ => ?_⟩
          split at h
          · obtain ⟨v, -, rfl⟩ := except_map_ok _ _ _ h
            rfl
          · cases h
            rfl

theorem Temporary.setField_session {ε : Type}
    (unmarshalExtensions : ε → JSON → Except Error ε)
    (s : Temporary ε) (key : String) (value : JSON) (s' : Temporary ε)
    (h : Temporary.setField unmarshalExtensions s key value = .ok s') :
    (matchesField "session_id" key = true → unmarshalString s.Session value = .ok s'.Session) ∧
    (matchesField "session_id" key = false → s'.Session = s.Session) := by
  unfold Temporary.setField at h
  split at h
  · rename_i hk
    obtain ⟨v, -, rfl⟩ := except_map_ok _ _ _ h
    exact ⟨fun hy => absurd hy (by
      rw [matchesField_ne "rooms" "session_id" key (by decide) hk]; simp), fun _ => rfl⟩
  · split at h
    · rename_i hk
      obtain ⟨v, -, rfl⟩ := except_map_ok _ _ _ h
      exact ⟨fun hy => absurd hy (by
        rw [matchesField_ne "lists" "session_id" key (by decide) hk]; simp), fun _ => rfl⟩
    · split at h
      · rename_i hk
        obtain ⟨v, -, rfl⟩ := except_map_ok _ _ _ h
        exact ⟨fun hy => absurd hy (by
          rw [matchesField_ne "extensions" "session_id" key (by decide) hk]; simp),
          fun _ => rfl⟩
      · split at h
        · rename_i hk
          obtain ⟨v, -, rfl⟩ := except_map_ok _ _ _ h
          exact ⟨fun hy => absurd hy (by
            rw [matchesField_ne "pos" "session_id" key (by decide) hk]; simp), fun _ => rfl⟩
        · split at h
          · rename_i hk
            obtain ⟨v, hv, rfl⟩ := except_map_ok _ _ _ h
            exact ⟨fun _ => hv, fun hn => by simp [hk] at hn⟩
          · rename_i hk
            cases h
            exact ⟨fun hy => absurd hy hk, fun _ => rfl⟩

/-- A string field decoded from the empty string by at most one member. -/
theorem string_field_decoded {σ : Type} (setField : σ → String → JSON → Except Error σ)
    (name : String) (get : σ → String)
    (hstep : ∀ s key value s', setField s key value = .ok s' →
      (matchesField name key = true → unmarshalString (get s) value = .ok (get s')) ∧
      (matchesField name key = false → get s' = get s))
    (b : JSON) (s v : σ) (hzero : get s = "") (h : unmarshalStruct setField s b = .ok v)
    (honce : selectsOnce name b = true) : get v = strOf (b.field name) := by
  cases b with
  | obj ms =>
    simp only [unmarshalStruct] at h
    simp only [selectsOnce, decide_eq_true_eq] at honce
    have h1 := decodeEach_once _ _ _ name ms honce
      (unmarshalMembers_field setField name get _ hstep ms _ v h)
    simp only [JSON.field]
    cases hl : lastMember name ms with
    | none =>
      rw [hl] at h1
      simp only at h1
      rw [h1, hzero]
      rfl
    | some value =>
      rw [hl] at h1
      simp only at h1
      rw [hzero] at h1
      cases value with
      | null =>
        simp only [unmarshalString, Except.ok.injEq] at h1
        rw [← h1]
        rfl
      | str x =>
        simp only [unmarshalString, Except.ok.injEq] at h1
        rw [← h1]
        rfl
      | _ => simp [unmarshalString] at h1
  | null =>
    simp only [unmarshalStruct, Except.ok.injEq] at h
    subst h
    rw [hzero]
    rfl
  | _ => simp [unmarshalStruct] at h

/-- A list of the envelope decoded from a zero value, no field named twice: its raw ops are
the elements of the member `ops`, its count the integer of the member `count`. -/
theorem temporaryList_decoded (raw : JSON) (t : TemporaryList)
    (h : unmarshalStruct TemporaryList.setField ⟨Slice.nil, 0⟩ raw = .ok t)
    (hops : selectsOnce "ops" raw = true) (hcount : selectsOnce "count" raw = true) :
    t.Ops.elems = arrayElems (raw.field "ops") ∧ t.Count = intOf (raw.field "count") := by
  cases raw with
  | obj ms =>
    simp only [unmarshalStruct] at h
    simp only [selectsOnce, decide_eq_true_eq] at hops hcount
    have h1 := decodeEach_once _ _ _ "ops" ms hops
      (unmarshalMembers_field TemporaryList.setField "ops" (fun s => s.Ops) _
        TemporaryList.setField_ops ms _ t h)
    have h2 := decodeEach_once _ _ _ "count" ms hcount
      (unmarshalMembers_field TemporaryList.setField "count" (fun s => s.Count) _
        TemporaryList.setField_count ms _ t h)
    simp only [JSON.field]
    constructor
    · cases hl : lastMember "ops" ms with
      | none =>
        rw [hl] at h1
        simp only at h1
        rw [h1]
        rfl
      | some value =>
        rw [hl] at h1
        simp only at h1
        have hall := unmarshalSlice_nil _ _ value _ h1
        simp only [Except.ok.injEq] at hall
        have : t.Ops.elems = arrayElems (some value) := by
          generalize arrayElems (some value) = js at hall
          generalize t.Ops.elems = vs at hall
          induction hall with
          | nil => rfl
          | cons hab _ ih => rw [ih, hab]
        exact this
    · cases hl : lastMember "count" ms with
      | none =>
        rw [hl] at h2
        simp only at h2
        rw [h2]
        rfl
      | some value =>
        rw [hl] at h2
        simp only at h2
        cases value with
        | null =>
          simp only [unmarshalInt, Except.ok.injEq] at h2
          rw [← h2]
          rfl
        | int n =>
          simp only [unmarshalInt] at h2
          split at h2
          · simp only [Except.ok.injEq] at h2
            rw [← h2]
            rfl
          · cases h2
        | _ => simp [unmarshalInt] at h2
  | null =>
    simp only [unmarshalStruct, Except.ok.injEq] at h
    subst h
    exact ⟨rfl, rfl⟩
  | _ => simp [unmarshalStruct] at h

/-- The lists of `temporary` after an envelope that names `lists` at most once was decoded:
one per element of the member `lists`, each decoded from a zero value. -/
theorem temporary_lists_decoded {ε : Type} (unmarshalExtensions : ε → JSON → Except Error ε)
    (zero : ε) (b : JSON) (temporary : Temporary ε)
    (h : Temporary.unmarshal unmarshalExtensions zero b = .ok temporary)
    (hlists : selectsOnce "lists" b = true) :
    List.Forall₂
      (fun t raw => unmarshalStruct TemporaryList.setField ⟨Slice.nil, 0⟩ raw = .ok t)
      temporary.Lists.elems (arrayElems (b.field "lists")) := by
  cases b with
  | obj ms =>
    simp only [Temporary.unmarshal, unmarshalStruct] at h
    simp only [selectsOnce, decide_eq_true_eq] at hlists
    have h1 := decodeEach_once _ _ _ "lists" ms hlists
      (unmarshalMembers_field (Temporary.setField unmarshalExtensions) "lists"
        (fun s => s.Lists) _ (Temporary.setField_lists unmarshalExtensions) ms _ temporary h)
    simp only [JSON.field]
    cases hl : lastMember "lists" ms with
    | none =>
      rw [hl] at h1
      simp only at h1
      rw [h1]
      exact List.Forall₂.nil
    | some value =>
      rw [hl] at h1
      exact unmarshalSlice_nil _ _ value _ h1
  | null =>
    simp only [Temporary.unmarshal, unmarshalStruct, Except.ok.injEq] at h
    subst h
    exact List.Forall₂.nil
  | _ => simp [Temporary.unmarshal, unmarshalStruct] at h

/-- The receiver's lists after a successful `UnmarshalJSON`, against the lists of
`temporary`. -/
theorem unmarshalJSON_lists_temporary (tmp : List TemporaryList) (out : List ResponseList)
    (h : Response.UnmarshalJSON.lists tmp 0 (List.replicate tmp.length ⟨[], 0⟩) = (out, none)) :
    List.Forall₂
      (fun (l : ResponseList) (t : TemporaryList) =>
        l.Count = t.Count ∧
        List.Forall₂
          (fun op raw => decodeOp raw = .ok op ∧ op.isRange = gjsonExists raw "range")
          l.Ops t.Ops.elems)
      out tmp := by
  obtain ⟨hlen, -, hget⟩ := unmarshalJSON_lists_spec _ _ _ _ h (by simp)
  simp only [List.length_replicate] at hlen
  rw [List.forall₂_iff_get]
  refine ⟨hlen, fun i h1 h2 => ?_⟩
  obtain ⟨ops, hops, hout⟩ := hget i (tmp.get ⟨i, h2⟩) (by simp)
  simp only [Nat.zero_add] at hout
  have hl : out.get ⟨i, h1⟩ = ⟨ops, (tmp.get ⟨i, h2⟩).Count⟩ := by
    have := List.getElem?_eq_getElem h1
    rw [hout] at this
    simpa using this.symm
  rw [hl]
  obtain ⟨decoded, hdec, hall⟩ := unmarshalJSON_ops_spec _ _ _ hops
  simp only [List.nil_append] at hdec
  subst hdec
  exact ⟨rfl, hall.imp fun op raw hop => ⟨hop, decodeOp_isRange raw op hop⟩⟩

theorem forall₂_comp_mem {α β γ : Type} (R : α → β → Prop) (S : β → γ → Prop)
    (T : α → γ → Prop) (xs : List α) (ys : List β) (zs : List γ)
    (hR : List.Forall₂ R xs ys) (hS : List.Forall₂ S ys zs)
    (hT : ∀ x y z, z ∈ zs → R x y → S y z → T x z) : List.Forall₂ T xs zs := by
  induction hR generalizing zs with
  | nil =>
    cases hS
    exact List.Forall₂.nil
  | cons hxy _ ih =>
    cases hS with
    | cons hyz hrest =>
      exact List.Forall₂.cons (hT _ _ _ (List.mem_cons_self _ _) hxy hyz)
        (ih _ hrest fun x y z hz => hT x y z (List.mem_cons_of_mem _ hz))

end Sync3

namespace Sync3

/-! ## Decoding what was encoded -/

theorem unmarshalElems_int_map (ns backing : List Int) (h : ∀ n ∈ ns, inInt64 n = true) :
    unmarshalElems unmarshalInt 0 backing (ns.map .int) = .ok ns := by
  induction ns generalizing backing with
  | nil => rfl
  | cons n rest ih =>
    have hn : inInt64 n = true := h n (List.mem_cons_self _ _)
    have hrest := ih backing.tail fun m hm => h m (List.mem_cons_of_mem _ hm)
    simp [unmarshalElems, unmarshalInt, hn, hrest]

theorem room_unmarshal_marshal (cur room : Room) :
    Room.unmarshal cur room.marshal = .ok room := by
  have hk : matchesField "room_id" "room_id" = true := by decide
  simp [Room.unmarshal, Room.marshal, unmarshalStruct, unmarshalMembers, Room.setField, hk,
    unmarshalString, Except.map]

theorem unmarshalElems_room_map (rooms backing : List Room) :
    unmarshalElems Room.unmarshal ⟨""⟩ backing (rooms.map Room.marshal) = .ok rooms := by
  induction rooms generalizing backing with
  | nil => rfl
  | cons r rest ih => simp [unmarshalElems, room_unmarshal_marshal, ih]

theorem range_roundtrip (v : ResponseOpRange) (hfit : ∀ n ∈ v.Range, inInt64 n = true)
    (hne : v.Range ≠ []) :
    gjsonExists v.marshal "range" = true ∧ decodeOp v.marshal = .ok (.range v) := by
  obtain ⟨operation, range, rooms⟩ := v
  have h1 : matchesField "op" "op" = true := by decide
  have h2 : matchesField "op" "range" = false := by decide
  have h3 : matchesField "range" "range" = true := by decide
  have h4 : matchesField "op" "rooms" = false := by decide
  have h5 : matchesField "range" "rooms" = false := by decide
  have h6 : matchesField "rooms" "rooms" = true := by decide
  have hex : ∀ rest, gjsonExists (.obj (("op", .str operation) ::
      ("range", .arr (range.map .int)) :: rest)) "range" = true := by
    intro rest
    simp [gjsonExists]
  have hints := unmarshalElems_int_map range [] hfit
  cases range with
  | nil => exact absurd rfl hne
  | cons n ns =>
    simp only [List.map_cons] at hints
    cases rooms with
    | nil =>
      refine ⟨hex _, ?_⟩
      have := hex []
      simp only [ResponseOpRange.marshal, List.isEmpty_cons, List.isEmpty_nil, if_true,
        Bool.false_eq_true, if_false, List.append_nil, List.cons_append, List.nil_append,
        decodeOp] at this ⊢
      rw [this]
      simp [ResponseOpRange.unmarshal, unmarshalStruct, unmarshalMembers,
        ResponseOpRange.setField, h1, h2, h3, unmarshalString, unmarshalSlice, hints,
        Except.map, Slice.nil, ResponseOpRange.Decoding.value]
    | cons r rs =>
      refine ⟨hex _, ?_⟩
      have := hex [("rooms", .arr ((r :: rs).map Room.marshal))]
      have hrooms := unmarshalElems_room_map (r :: rs) []
      simp only [List.map_cons] at hrooms
      simp only [ResponseOpRange.marshal, List.isEmpty_cons, if_true,
        Bool.false_eq_true, if_false, List.append_nil, List.cons_append, List.nil_append,
        decodeOp] at this ⊢
      rw [this]
      simp [ResponseOpRange.unmarshal, unmarshalStruct, unmarshalMembers,
        ResponseOpRange.setField, h1, h2, h3, h4, h5, h6, unmarshalString, unmarshalSlice,
        hints, hrooms, Except.map, Slice.nil, ResponseOpRange.Decoding.value]

theorem single_roundtrip (v : ResponseOpSingle) (hfit : ∀ k, v.Index = some k → inInt64 k = true) :
    gjsonExists v.marshal "range" = false ∧ decodeOp v.marshal = .ok (.single v) := by
  obtain ⟨operation, index, room⟩ := v
  have h1 : matchesField "op" "op" = true := by decide
  have h2 : matchesField "op" "index" = false := by decide
  have h3 : matchesField "index" "index" = true := by decide
  have h4 : matchesField "op" "room" = false := by decide
  have h5 : matchesField "index" "room" = false := by decide
  have h6 : matchesField "room" "room" = true := by decide
  have hex : gjsonExists (ResponseOpSingle.marshal ⟨operation, index, room⟩) "range" = false := by
    cases index <;> cases room <;> simp [ResponseOpSingle.marshal, gjsonExists]
  refine ⟨hex, ?_⟩
  simp only [decodeOp, hex, Bool.false_eq_true, if_false]
  cases index with
  | none =>
    cases room with
    | none =>
      simp [ResponseOpSingle.marshal, ResponseOpSingle.unmarshal, unmarshalStruct,
        unmarshalMembers, ResponseOpSingle.setField, h1, unmarshalString, Except.map]
    | some r =>
      have hr := room_unmarshal_marshal ⟨""⟩ r
      simp only [Room.marshal] at hr
      simp [ResponseOpSingle.marshal, ResponseOpSingle.unmarshal, unmarshalStruct,
        unmarshalMembers, ResponseOpSingle.setField, h1, h4, h5, h6, unmarshalString,
        unmarshalRoomPtr, Room.marshal, hr, Except.map]
  | some i =>
    have hi : inInt64 i = true := hfit i rfl
    cases room with
    | none =>
      simp [ResponseOpSingle.marshal, ResponseOpSingle.unmarshal, unmarshalStruct,
        unmarshalMembers, ResponseOpSingle.setField, h1, h2, h3, unmarshalString,
        unmarshalIntPtr, unmarshalInt, hi, Except.map]
    | some r =>
      have hr := room_unmarshal_marshal ⟨""⟩ r
      simp only [Room.marshal] at hr
      simp [ResponseOpSingle.marshal, ResponseOpSingle.unmarshal, unmarshalStruct,
        unmarshalMembers, ResponseOpSingle.setField, h1, h2, h3, h4, h5, h6, unmarshalString,
        unmarshalIntPtr, unmarshalInt, hi, unmarshalRoomPtr, Room.marshal, hr, Except.map]

/-! ## The claims about decoding and the list operations -/

/-- C6 fails as stated, on the envelope
`{"lists":[{"ops":[{"op":"SYNC"}],"count":3}],"lists":[{"count":4}]}`: `encoding/json` decodes
the second `lists` member into the slice the first one left, element by element, so the call
succeeds with one list of count 4 holding the op of the first member.  Neither of the two
`lists` members of the input has count 4 and one op. -/
theorem unmarshalJSON_repeated_lists_counterexample :
    Response.UnmarshalJSON noExtensions () zeroResponse envelopeRepeatedLists =
        (⟨[⟨[.single ⟨"SYNC", none, none⟩], 4⟩], [], (), "", ""⟩, none) ∧
      envelopeRepeatedLists = .obj [("lists", .arr [listOneOp]), ("lists", .arr [listNoOps])] ∧
      intOf (listOneOp.field "count") = 3 ∧
      (arrayElems (listOneOp.field "ops")).length = 1 ∧
      intOf (listNoOps.field "count") = 4 ∧
      (arrayElems (listNoOps.field "ops")).length = 0 :=
  ⟨rfl, rfl, rfl, rfl, rfl, rfl⟩

/-- C6, amended: when `Response.UnmarshalJSON` returns nil on an envelope in which no object
names a field of the lists twice (`lists` in the envelope, `ops` and `count` in a list), the
receiver's lists match the elements of the input member `lists` one to one: same number of
lists, the count of each list is the integer of its member `count`, its ops match the elements
of its member `ops` in number and order, the op at each position being the decoding of the raw
op at that position, and it is the range variant exactly when that raw op has a `range`
key. -/
theorem Response.unmarshalJSON_lists {ε : Type}
    (unmarshalExtensions : ε → JSON → Except Error ε) (zero : ε) (r r' : Response ε) (b : JSON)
    (h : Response.UnmarshalJSON unmarshalExtensions zero r b = (r', none))
    (hfields : noRepeatedFields b = true) :
    List.Forall₂
      (fun (l : ResponseList) (rawList : JSON) =>
        l.Count = intOf (rawList.field "count") ∧
        List.Forall₂
          (fun op raw => decodeOp raw = .ok op ∧ op.isRange = gjsonExists raw "range")
          l.Ops (arrayElems (rawList.field "ops")))
      r'.Lists (arrayElems (b.field "lists")) := by
  unfold Response.UnmarshalJSON at h
  split at h
  · simp at h
  · rename_i temporary htmp
    simp only [Prod.mk.injEq] at h
    obtain ⟨hr, herr⟩ := h
    have hloop :
        Response.UnmarshalJSON.lists temporary.Lists.elems 0
            (List.replicate temporary.Lists.elems.length ⟨[], 0⟩) =
          ((Response.UnmarshalJSON.lists temporary.Lists.elems 0
            (List.replicate temporary.Lists.elems.length ⟨[], 0⟩)).1, none) := by
      rw [← herr]
    simp only [noRepeatedFields, Bool.and_eq_true, List.all_eq_true] at hfields
    obtain ⟨hlists, hall⟩ := hfields
    subst hr
    refine forall₂_comp_mem _ _ _ _ _ _ (unmarshalJSON_lists_temporary _ _ hloop)
      (temporary_lists_decoded unmarshalExtensions zero b temporary htmp hlists) ?_
    intro l t rawList hmem hl ht
    obtain ⟨hops, hcount⟩ := temporaryList_decoded rawList t ht (hall rawList hmem).1
      (hall rawList hmem).2
    rw [← hops, ← hcount]
    exact hl

/-- C6, on an envelope with one list holding `{"op":"INSERT","range":[0,1]}` and
`{"op":"SYNC"}`: the first decodes as a range op, the second as a single op. -/
theorem Response.unmarshalJSON_lists_witness :
    Response.UnmarshalJSON noExtensions () zeroResponse envelopeTwoOps =
        (⟨[⟨[.range ⟨"INSERT", [0, 1], []⟩, .single ⟨"SYNC", none, none⟩], 7⟩], [], (), "42", ""⟩,
          none) ∧
      noRepeatedFields envelopeTwoOps = true ∧
      List.Forall₂
        (fun (l : ResponseList) (rawList : JSON) =>
          l.Count = intOf (rawList.field "count") ∧
          List.Forall₂
            (fun op raw => decodeOp raw = .ok op ∧ op.isRange = gjsonExists raw "range")
            l.Ops (arrayElems (rawList.field "ops")))
        [⟨[.range ⟨"INSERT", [0, 1], []⟩, .single ⟨"SYNC", none, none⟩], 7⟩]
        (arrayElems (envelopeTwoOps.field "lists")) :=
  ⟨rfl, rfl, Response.unmarshalJSON_lists noExtensions () zeroResponse _ envelopeTwoOps rfl rfl⟩

/-- C7, as stated, fails on `{"op":"SYNC","range":[]}`: it has a `range` key and decodes as a
range op with an empty range; re-encoded, `omitempty` drops the key, and the re-encoded object
decodes as a single op. -/
theorem op_roundtrip_empty_range_counterexample :
    gjsonExists opSyncEmptyRange "range" = true ∧
      decodeOp opSyncEmptyRange = .ok (.range ⟨"SYNC", [], []⟩) ∧
      gjsonExists (ResponseOp.range ⟨"SYNC", [], []⟩).marshal "range" = false ∧
      decodeOp (ResponseOp.range ⟨"SYNC", [], []⟩).marshal = .ok (.single ⟨"SYNC", none, none⟩) :=
  ⟨rfl, rfl, rfl, rfl⟩

/-- C7, amended: for every raw op that decodes successfully as a single op, or as a range op
whose decoded range is not empty, the re-encoded op has a `range` key exactly when the raw op
had one, and it decodes to the very same op (same variant, kind, range or index, rooms). -/
theorem op_roundtrip (raw : JSON) (op : ResponseOp) (hdec : decodeOp raw = .ok op)
    (hrange : ∀ oper, op = .range oper → oper.Range ≠ []) :
    gjsonExists op.marshal "range" = gjsonExists raw "range" ∧ decodeOp op.marshal = .ok op := by
  have hvariant := decodeOp_isRange raw op hdec
  unfold decodeOp at hdec
  cases op with
  | range oper =>
    split at hdec
    · split at hdec
      · cases hdec
      · rename_i v hv
        cases hdec
        obtain ⟨h1, h2⟩ := range_roundtrip oper (range_decoded_inInt64 raw oper hv)
          (hrange oper rfl)
        exact ⟨by rw [← hvariant]; simpa [ResponseOp.marshal, ResponseOp.isRange] using h1, h2⟩
    · split at hdec <;> cases hdec
  | single oper =>
    split at hdec
    · split at hdec <;> cases hdec
    · split at hdec
      · cases hdec
      · rename_i v hv
        cases hdec
        obtain ⟨h1, h2⟩ := single_roundtrip oper (single_decoded_inInt64 raw oper hv)
        exact ⟨by rw [← hvariant]; simpa [ResponseOp.marshal, ResponseOp.isRange] using h1, h2⟩

/-- C7, amended, on `{"op":"SYNC","range":[0,2],"rooms":[{"room_id":"!a"},{"room_id":"!b"}]}`. -/
theorem op_roundtrip_witness :
    decodeOp opSyncRange = .ok (.range ⟨"SYNC", [0, 2], [⟨"!a"⟩, ⟨"!b"⟩]⟩) ∧
      gjsonExists (ResponseOp.range ⟨"SYNC", [0, 2], [⟨"!a"⟩, ⟨"!b"⟩]⟩).marshal "range" =
        gjsonExists opSyncRange "range" ∧
      decodeOp (ResponseOp.range ⟨"SYNC", [0, 2], [⟨"!a"⟩, ⟨"!b"⟩]⟩).marshal =
        .ok (.range ⟨"SYNC", [0, 2], [⟨"!a"⟩, ⟨"!b"⟩]⟩) :=
  ⟨rfl, op_roundtrip opSyncRange _ rfl (fun oper h => by cases h; simp)⟩

/-- C8, as stated, fails on `{"op":"DELETE","index":null}`: the object has an `index` key and
no `range` key, it decodes as a single op, and the decoded `Index` is absent. -/
theorem single_index_null_counterexample :
    gjsonExists opDeleteIndexNull "index" = true ∧
      gjsonExists opDeleteIndexNull "range" = false ∧
      decodeOp opDeleteIndexNull = .ok (.single ⟨"DELETE", none, none⟩) ∧
      (ResponseOpSingle.mk "DELETE" none none).Index = none :=
  ⟨rfl, rfl, rfl, rfl⟩

/-- C8, amended: for every op object that decodes as a single op, `Index` is present with
value `k` exactly when the last member whose key selects the field `index` is the integer `k`,
and absent exactly when no member selects it or the last one that does is `null`. -/
theorem single_index_decoded (members : List (String × JSON)) (v : ResponseOpSingle)
    (h : decodeOp (.obj members) = .ok (.single v)) :
    (∀ k, v.Index = some k ↔ lastMember "index" members = some (.int k)) ∧
      (v.Index = none ↔
        lastMember "index" members = none ∨ lastMember "index" members = some .null) := by
  have hv : unmarshalMembers ResponseOpSingle.setField members ⟨"", none, none⟩ = .ok v := by
    unfold decodeOp at h
    split at h
    · split at h <;> cases h
    · split at h
      · cases h
      · rename_i oper ho
        cases h
        exact ho
  have hafter := single_index_after members _ v hv
  cases hl : lastMember "index" members with
  | none =>
    rw [hl] at hafter
    simp only [IntPtrAfter] at hafter
    simp [hafter]
  | some x =>
    rw [hl] at hafter
    cases x <;> simp_all [IntPtrAfter]

/-- C8, amended, on `{"op":"DELETE","index":0}`: a single op with `Index` present and equal to
0, whose `IncludedRoomIDs()` is empty. -/
theorem single_index_decoded_witness :
    decodeOp opDeleteIndexZero = .ok (.single ⟨"DELETE", some 0, none⟩) ∧
      (ResponseOpSingle.mk "DELETE" (some 0) none).IncludedRoomIDs = [] ∧
      ((∀ k, (ResponseOpSingle.mk "DELETE" (some 0) none).Index = some k ↔
          lastMember "index" [("op", .str "DELETE"), ("index", .int 0)] = some (.int k)) ∧
        ((ResponseOpSingle.mk "DELETE" (some 0) none).Index = none ↔
          lastMember "index" [("op", .str "DELETE"), ("index", .int 0)] = none ∨
            lastMember "index" [("op", .str "DELETE"), ("index", .int 0)] = some .null)) :=
  ⟨rfl, rfl, single_index_decoded [("op", .str "DELETE"), ("index", .int 0)] _ rfl⟩

/-- C9: a range op's `IncludedRoomIDs()` is empty when its kind is `INVALIDATE`, and otherwise
the room IDs of its snapshots, one per snapshot and in their order; the op decoded from
`{"op":"SYNC","range":[0,2],"rooms":[{"room_id":"!a"},{"room_id":"!b"}]}` returns `!a`, `!b`. -/
theorem ResponseOpRange.includedRoomIDs_range (r : ResponseOpRange) :
    r.IncludedRoomIDs =
        (if r.Operation = "INVALIDATE" then [] else r.Rooms.map fun room => room.RoomID) ∧
      (r.Operation ≠ "INVALIDATE" → r.IncludedRoomIDs.length = r.Rooms.length ∧
        ∀ i : Nat, r.IncludedRoomIDs[i]? = r.Rooms[i]?.map fun (room : Room) => room.RoomID) ∧
      decodeOp opSyncRange = .ok (.range ⟨"SYNC", [0, 2], [⟨"!a"⟩, ⟨"!b"⟩]⟩) ∧
      (ResponseOpRange.mk "SYNC" [0, 2] [⟨"!a"⟩, ⟨"!b"⟩]).IncludedRoomIDs = ["!a", "!b"] := by
  refine ⟨rfl, fun hne => ?_, rfl, rfl⟩
  have hne' : ¬ r.Op = OpInvalidate := hne
  simp [ResponseOpRange.IncludedRoomIDs, hne']

/-- C10: a single op's `IncludedRoomIDs()` is empty exactly when its kind is `DELETE` or it
carries no room; with any other kind and a room present it is that room's ID alone. -/
theorem ResponseOpSingle.includedRoomIDs_single (r : ResponseOpSingle) :
    (r.IncludedRoomIDs = [] ↔ r.Operation = "DELETE" ∨ r.Room = none) ∧
      ∀ room, r.Room = some room → r.Operation ≠ "DELETE" →
        r.IncludedRoomIDs = [room.RoomID] := by
  obtain ⟨operation, index, room⟩ := r
  by_cases hop : operation = "DELETE" <;> cases room <;>
    simp [ResponseOpSingle.IncludedRoomIDs, ResponseOpSingle.Op, OpDelete, hop]

end Sync3

namespace Extensions

/-! ## The claims about the response aggregate and the handler -/

theorem hasData_loop_iff {β : Type} (hasData : ExtKind → β → Bool → Bool) (isInitial : Bool)
    (fs : List (GenericResponse β)) :
    Response.HasData.loop hasData isInitial fs = true ↔
      ∃ f ∈ fs, ∃ v, f.ptr = some v ∧ hasData f.kind v isInitial = true := by
  induction fs with
  | nil => simp [Response.HasData.loop]
  | cons f rest ih =>
    obtain ⟨k, p⟩ := f
    cases p with
    | none => simp [Response.HasData.loop, ih]
    | some v =>
      cases hv : hasData k v isInitial <;> simp [Response.HasData.loop, ih, hv]

/-- C16: `Response.HasData(isInitial)` is true exactly when one of the five slots is non-nil
and that slot's `HasData(isInitial)` is true; so it is false when all slots are nil, and when
every populated slot reports false. -/
theorem Response.hasData_iff {β : Type} (hasData : ExtKind → β → Bool → Bool) (r : Response β)
    (isInitial : Bool) :
    (r.HasData hasData isInitial = true ↔
      ∃ k v, r.get k = some v ∧ hasData k v isInitial = true) ∧
    ((∀ k, r.get k = none) → r.HasData hasData isInitial = false) ∧
    ((∀ k v, r.get k = some v → hasData k v isInitial = false) →
      r.HasData hasData isInitial = false) := by
  have hiff : r.HasData hasData isInitial = true ↔
      ∃ k v, r.get k = some v ∧ hasData k v isInitial = true := by
    rw [Response.HasData, hasData_loop_iff]
    obtain ⟨r0, r1, r2, r3, r4⟩ := r
    constructor
    · rintro ⟨f, hf, v, hp, hd⟩
      simp only [Response.fields, List.mem_cons, List.mem_singleton, List.mem_nil_iff,
        or_false] at hf
      rcases hf with rfl | rfl | rfl | rfl | rfl
      · exact ⟨.ToDevice, v, hp, hd⟩
      · exact ⟨.E2EE, v, hp, hd⟩
      · exact ⟨.AccountData, v, hp, hd⟩
      · exact ⟨.Typing, v, hp, hd⟩
      · exact ⟨.Receipts, v, hp, hd⟩
    · rintro ⟨k, v, hk, hd⟩
      refine ⟨⟨k, some v⟩, ?_, v, rfl, hd⟩
      cases k <;> simp_all [Response.fields, Response.get]
  refine ⟨hiff, fun hnil => ?_, fun hfalse => ?_⟩
  · cases hd : r.HasData hasData isInitial with
    | false => rfl
    | true =>
      obtain ⟨k, v, hk, -⟩ := hiff.mp hd
      rw [hnil k] at hk
      cases hk
  · cases hd : r.HasData hasData isInitial with
    | false => rfl
    | true =>
      obtain ⟨k, v, hk, hv⟩ := hiff.mp hd
      rw [hfalse k v hk] at hv
      cases hv

/-- C17, as stated, fails for a slot that is nil in `R` and non-nil in `next`: the returned
aggregate points to `next`'s object, the caller's `R` still holds nil. -/
theorem Request.applyDelta_receiver_counterexample :
    ∃ h', Request.callApplyDelta stickyLimit scenarioHeap emptyRequest scenarioNext =
        some (h', emptyRequest, scenarioNext) ∧
      emptyRequest.ToDevice = none ∧ scenarioNext.ToDevice = some 1 := by
  refine ⟨mergedHeap stickyLimit scenarioHeap emptyRequest scenarioNext, ?_, rfl, rfl⟩
  rw [Request.callApplyDelta, Request.applyDelta_closed]
  rfl

/-- C17, amended: `Request.ApplyDelta` returns the merged aggregate and leaves the caller's
`R` with the five pointers it had.  A slot that is non-nil in `R` is the same pointer in the
caller's `R` and in the returned aggregate, and when `next` has that slot too the object
behind it has been merged in place, so the caller sees the merged flag through its own
pointer.  A slot that is nil in `R` stays nil in the caller's `R`, while the returned
aggregate has `next`'s slot. -/
theorem Request.applyDelta_receiver {α : Type} (mix : ExtKind → α → α → α) (h : Heap α)
    (R next : Request) :
    ∃ h' ret, Request.callApplyDelta mix h R next = some (h', R, ret) ∧
      ∀ k : ExtKind,
        (∀ c, R.get k = some c → ret.get k = some c ∧
          ∀ n, next.get k = some n →
            (h' k c).Enabled =
              (match (h k n).Enabled with
                | some b => some b
                | none => (h k c).Enabled)) ∧
        (R.get k = none → ret.get k = next.get k) := by
  refine ⟨_, _, by rw [Request.callApplyDelta, Request.applyDelta_closed]; rfl, fun k => ⟨?_, ?_⟩⟩
  · intro c hc
    refine ⟨?_, fun n hn => ?_⟩
    · rw [mergedSlot_get, hc]
      cases next.get k <;> rfl
    · rw [mergedHeap_apply, hc, hn]
      simp [mergedObject]
  · intro hc
    rw [mergedSlot_get, hc]
    cases next.get k <;> rfl

theorem invokeAll_eq_foldl {ω β : Type}
    (invoke : GenericRequest → ω × Response β → ω × Response β)
    (exts : List GenericRequest) (state : ω × Response β) :
    Handler.invokeAll invoke exts state = exts.foldl (fun s ext => invoke ext s) state := by
  induction exts generalizing state with
  | nil => rfl
  | cons ext rest ih => simp [Handler.invokeAll, ih]

theorem invokeAll_recordCall {β : Type} (extCtx : Context) (exts : List GenericRequest)
    (state : List (GenericRequest × Context) × Response β) :
    Handler.invokeAll (fun ext => recordCall ext extCtx) exts state =
      (state.1 ++ exts.map fun ext => (ext, extCtx), state.2) := by
  induction exts generalizing state with
  | nil => simp [Handler.invokeAll]
  | cons ext rest ih => simp [Handler.invokeAll, ih, recordCall]

/-- C18: `Handle` threads one response, starting from the all-nil one, through
`ProcessInitial` called on the elements of `req.EnabledExtensions()` in that list's order, and
`HandleLiveUpdate` threads the response passed in through `AppendLive` called on the elements
of the same list in the same order; with no enabled extension the first returns the all-nil
response and the second leaves the response unchanged.  Recording the calls shows that each
makes exactly one call per element, in order, with the handler set in the context. -/
theorem Handler.handle_invocations {α ω β υ : Type}
    (processInitial : GenericRequest → Context → ω × Response β → ω × Response β)
    (appendLive : GenericRequest → Context → υ → ω × Response β → ω × Response β)
    (handler : Nat) (heap : Heap α) (update : υ) (req : Request) (res : Response β)
    (extCtx : Context) (world : ω) :
    Handler.Handle processInitial handler heap req extCtx world =
        (req.EnabledExtensions heap).foldl
          (fun s ext => processInitial ext { extCtx with Handler := some handler } s)
          (world, ⟨none, none, none, none, none⟩) ∧
    Handler.HandleLiveUpdate appendLive handler heap update req res extCtx world =
        (req.EnabledExtensions heap).foldl
          (fun s ext => appendLive ext { extCtx with Handler := some handler } update s)
          (world, res) ∧
    (req.EnabledExtensions heap = [] →
      Handler.Handle processInitial handler heap req extCtx world =
          (world, ⟨none, none, none, none, none⟩) ∧
        Handler.HandleLiveUpdate appendLive handler heap update req res extCtx world =
          (world, res)) ∧
    (Handler.Handle (@recordCall β) handler heap req extCtx
        ([] : List (GenericRequest × Context))).1 =
      ((req.EnabledExtensions heap).map fun ext =>
        (ext, { extCtx with Handler := some handler })) ∧
    (Handler.HandleLiveUpdate (fun ext ctx (_ : υ) => recordCall ext ctx) handler heap update
        req res extCtx ([] : List (GenericRequest × Context))).1 =
      (Handler.Handle (@recordCall β) handler heap req extCtx
        ([] : List (GenericRequest × Context))).1 := by
  refine ⟨invokeAll_eq_foldl _ _ _, invokeAll_eq_foldl _ _ _, fun hnone => ?_, ?_, ?_⟩
  · simp [Handler.Handle, Handler.HandleLiveUpdate, hnone, Handler.invokeAll]
  · simp [Handler.Handle, invokeAll_recordCall]
  · simp [Handler.Handle, Handler.HandleLiveUpdate, invokeAll_recordCall]

/-- C19: `R.setFields(R.fields())` succeeds and leaves `R` as it was, and for every list of
five interface values whose i-th element has the i-th slot's type, `setFields` succeeds and
`fields()` then returns that list. -/
theorem Request.setFields_fields (r : Request) (fs : List GenericRequest)
    (hfs : (fs.map fun f => f.kind) = declarationOrder) :
    r.setFields r.fields = some r ∧
      ∃ r', r.setFields fs = some r' ∧ r'.fields = fs := by
  constructor
  · obtain ⟨r0, r1, r2, r3, r4⟩ := r
    simp [Request.setFields, Request.fields, GenericRequest.assert]
  · match fs, hfs with
    | [⟨k0, p0⟩, ⟨k1, p1⟩, ⟨k2, p2⟩, ⟨k3, p3⟩, ⟨k4, p4⟩], hfs =>
      simp only [List.map_cons, List.map_nil, declarationOrder, List.cons.injEq,
        and_true] at hfs
      obtain ⟨rfl, rfl, rfl, rfl, rfl⟩ := hfs
      exact ⟨⟨p0, p1, p2, p3, p4⟩, by simp [Request.setFields, GenericRequest.assert], rfl⟩

/-- C19, on a receiver with all slots nil and five interface values, two of them nil pointers. -/
theorem Request.setFields_fields_witness :
    (alignedFields.map fun f => f.kind) = declarationOrder ∧
      emptyRequest.setFields emptyRequest.fields = some emptyRequest ∧
      ∃ r', emptyRequest.setFields alignedFields = some r' ∧ r'.fields = alignedFields :=
  ⟨rfl, Request.setFields_fields emptyRequest alignedFields rfl⟩

end Extensions

namespace Extensions

/-! ## Sequences of requests -/

/-- One merge step on the flag of a slot: the arriving flag wins when it is specified. -/
theorem flagOf_step {α : Type} (mix : ExtKind → α → α → α) (h : Heap α) (r d : Request)
    (k : ExtKind) :
    flagOf (mergedHeap mix h r d)
        ⟨mergedSlot r.ToDevice d.ToDevice, mergedSlot r.E2EE d.E2EE,
         mergedSlot r.AccountData d.AccountData, mergedSlot r.Typing d.Typing,
         mergedSlot r.Receipts d.Receipts⟩ k =
      match flagOf h d k with
      | some b => some b
      | none => flagOf h r k := by
  simp only [flagOf, mergedSlot_get, mergedHeap_apply]
  cases hr : r.get k with
  | none =>
    cases hd : d.get k with
    | none => simp [mergedSlot]
    | some n => cases hn : (h k n).Enabled <;> simp [mergedSlot, hn]
  | some c =>
    cases hd : d.get k with
    | none => simp [mergedSlot]
    | some n => cases hn : (h k n).Enabled <;> simp [mergedSlot, mergedObject, hn]

theorem applyAll_flags {α : Type} (mix : ExtKind → α → α → α) (ds : List Request) (h : Heap α)
    (r : Request) :
    ∃ hn rn, Request.applyAll mix h r ds = some (hn, rn) ∧
      ∀ k, flagOf hn rn k = lastWriter (flagOf h r k) (Request.arrivingFlags mix k h r ds) := by
  induction ds generalizing h r with
  | nil => exact ⟨h, r, rfl, fun k => rfl⟩
  | cons d ds ih =>
    obtain ⟨hn, rn, happ, hflags⟩ := ih (mergedHeap mix h r d)
      ⟨mergedSlot r.ToDevice d.ToDevice, mergedSlot r.E2EE d.E2EE,
       mergedSlot r.AccountData d.AccountData, mergedSlot r.Typing d.Typing,
       mergedSlot r.Receipts d.Receipts⟩
    refine ⟨hn, rn, ?_, fun k => ?_⟩
    · simp only [Request.applyAll, Request.applyDelta_closed]
      exact happ
    · rw [hflags k, flagOf_step]
      simp only [Request.arrivingFlags, Request.applyDelta_closed, lastWriter, List.foldl_cons]

theorem arrivingFlags_fresh {α : Type} (mix : ExtKind → α → α → α) (k : ExtKind)
    (ds : List Request) (h : Heap α) (r : Request)
    (hfresh : List.Pairwise (fun a b : Option Nat => a = none ∨ a ≠ b)
      (r.get k :: ds.map fun d => d.get k)) :
    Request.arrivingFlags mix k h r ds = ds.map fun d => flagOf h d k := by
  induction ds generalizing h r with
  | nil => rfl
  | cons d ds ih =>
    simp only [List.map_cons, List.pairwise_cons, List.mem_cons, forall_eq_or_imp,
      List.mem_map, forall_exists_index, and_imp, forall_apply_eq_imp_iff₂] at hfresh
    obtain ⟨⟨hrd, hrds⟩, hdds, hpair⟩ := hfresh
    simp only [Request.arrivingFlags, Request.applyDelta_closed, List.map_cons, List.cons.injEq,
      true_and]
    rw [ih]
    · apply List.map_congr_left
      intro d' hd'
      simp only [flagOf]
      cases hn' : d'.get k with
      | none => rfl
      | some n' =>
        simp only [mergedHeap_apply]
        cases hr : r.get k with
        | none => rfl
        | some c =>
          cases hd : d.get k with
          | none => rfl
          | some n =>
            have hne : n' ≠ c := by
              rcases hrds d' hd' with h0 | h0
              · rw [hr] at h0
                cases h0
              · rw [hr, hn'] at h0
                exact fun e => h0 (by rw [e])
            simp [hne]
    · simp only [List.pairwise_cons, List.mem_map, forall_exists_index, and_imp,
        forall_apply_eq_imp_iff₂]
      refine ⟨fun d' hd' => ?_, hpair⟩
      rw [mergedSlot_get]
      cases hr : r.get k with
      | none =>
        cases hd : d.get k with
        | none => exact Or.inl rfl
        | some n =>
          have := hdds d' hd'
          rw [hd] at this
          simpa [mergedSlot] using this
      | some c =>
        have := hrds d' hd'
        rw [hr] at this
        cases hd : d.get k <;> simpa [mergedSlot] using this

theorem mergedObject_self {α : Type} (mix : ExtKind → α → α → α) (k : ExtKind)
    (hself : ∀ k p, mix k p p = p) (p : ExtRequest α) : mergedObject mix k p p = p := by
  obtain ⟨⟨enabled⟩, params⟩ := p
  cases enabled <;> simp [mergedObject, hself]

theorem mergedObject_idem {α : Type} (mix : ExtKind → α → α → α) (k : ExtKind)
    (hidem : ∀ k c n, mix k (mix k c n) n = mix k c n) (c n : ExtRequest α) :
    mergedObject mix k (mergedObject mix k c n) n = mergedObject mix k c n := by
  obtain ⟨⟨enabled⟩, params⟩ := n
  cases enabled <;> simp [mergedObject, hidem]

theorem mergedSlot_idem (a b : Option Nat) : mergedSlot (mergedSlot a b) b = mergedSlot a b := by
  cases a <;> cases b <;> rfl

/-- C20: over any sequence of requests applied in order, the enabled flag of each slot of the
final aggregate is the flag of the latest request that carried that slot with its flag
specified (read when that request is applied), or the initial aggregate's flag when none did;
when the objects of the requests and of the initial aggregate are all different, these are
the flags the requests had at the start.  Applying the same request twice in a row gives the
same aggregate and the same flags as applying it once, and the same objects when the
extension-specific merge is idempotent. -/
theorem Request.applyAll_last_writer {α : Type} (mix : ExtKind → α → α → α) (h : Heap α)
    (r : Request) (ds : List Request) (d : Request) :
    (∃ hn rn, Request.applyAll mix h r ds = some (hn, rn) ∧
      (∀ k, flagOf hn rn k = lastWriter (flagOf h r k) (Request.arrivingFlags mix k h r ds)) ∧
      ∀ k, List.Pairwise (fun a b : Option Nat => a = none ∨ a ≠ b)
          (r.get k :: ds.map fun d => d.get k) →
        flagOf hn rn k = lastWriter (flagOf h r k) (ds.map fun d => flagOf h d k)) ∧
    (∃ h1 r1 h2 r2, Request.ApplyDelta mix h r d = some (h1, r1) ∧
      Request.ApplyDelta mix h1 r1 d = some (h2, r2) ∧
      Request.applyAll mix h r [d, d] = some (h2, r2) ∧
      r2 = r1 ∧ (∀ k, flagOf h2 r2 k = flagOf h1 r1 k) ∧
      ((∀ k c n, mix k (mix k c n) n = mix k c n) → (∀ k p, mix k p p = p) → h2 = h1)) := by
  constructor
  · obtain ⟨hn, rn, happ, hflags⟩ := applyAll_flags mix ds h r
    refine ⟨hn, rn, happ, hflags, fun k hfresh => ?_⟩
    rw [hflags k, arrivingFlags_fresh mix k ds h r hfresh]
  · refine ⟨_, _, _, _, Request.applyDelta_closed mix h r d,
      Request.applyDelta_closed mix _ _ d, ?_, ?_, fun k => ?_, fun hidem hself => ?_⟩
    · simp only [Request.applyAll, Request.applyDelta_closed]
    · simp only [mergedSlot_idem]
    · rw [flagOf_step, flagOf_step]
      simp only [flagOf, mergedHeap_apply]
      cases hd : d.get k with
      | none => simp
      | some n =>
        cases hr : r.get k with
        | none => cases hn : (h k n).Enabled <;> simp [hn]
        | some c =>
          by_cases hnc : n = c
          · subst hnc
            cases hn : (h k n).Enabled <;> simp [mergedObject, hn]
          · cases hn : (h k n).Enabled <;> simp [mergedObject, hn, hnc]
    · funext k a
      rw [mergedHeap_apply, mergedSlot_get]
      cases hd : d.get k with
      | none => cases hr : r.get k <;> simp [mergedSlot]
      | some n =>
        cases hr : r.get k with
        | none =>
          simp only [mergedSlot]
          by_cases hac : a = n
          · subst hac
            simp only [if_true, mergedHeap_apply, hr, hd]
            exact mergedObject_self mix k hself _
          · simp only [hac, if_false]
        | some c =>
          simp only [mergedSlot]
          by_cases hac : a = c
          · subst hac
            simp only [mergedHeap_apply, hr, hd, if_true]
            by_cases hnc : n = a
            · subst hnc
              simp only [if_true]
              exact mergedObject_self mix k hself _
            · simp only [hnc, if_false]
              exact mergedObject_idem mix k hidem _ _
          · simp only [hac, if_false]

end Extensions

namespace Sync3

/-! ## The set of included rooms -/

theorem mem_foldl_insert (ids : List String) (set : Finset String) (x : String) :
    x ∈ ids.foldl (fun set roomID => insert roomID set) set ↔ x ∈ set ∨ x ∈ ids := by
  induction ids generalizing set with
  | nil => simp
  | cons a rest ih =>
    simp only [List.foldl_cons, ih, Finset.mem_insert, List.mem_cons]
    tauto

theorem mem_foldl_ops (ops : List ResponseOp) (set : Finset String) (x : String) :
    x ∈ ops.foldl
        (fun set op => op.IncludedRoomIDs.foldl (fun set roomID => insert roomID set) set) set ↔
      x ∈ set ∨ ∃ op ∈ ops, x ∈ op.IncludedRoomIDs := by
  induction ops generalizing set with
  | nil => simp
  | cons a rest ih =>
    simp only [List.foldl_cons, ih, mem_foldl_insert, List.mem_cons, exists_eq_or_imp, or_assoc]

theorem mem_foldl_lists (lists : List ResponseList) (set : Finset String) (x : String) :
    x ∈ lists.foldl
        (fun set list =>
          list.Ops.foldl
            (fun set op => op.IncludedRoomIDs.foldl (fun set roomID => insert roomID set) set)
            set) set ↔
      x ∈ set ∨ ∃ list ∈ lists, ∃ op ∈ list.Ops, x ∈ op.IncludedRoomIDs := by
  induction lists generalizing set with
  | nil => simp
  | cons a rest ih =>
    simp only [List.foldl_cons, ih, mem_foldl_ops, List.mem_cons, exists_eq_or_imp, or_assoc]

theorem mem_includedRoomIDsInOps (lists : List ResponseList) (x : String) :
    x ∈ IncludedRoomIDsInOps lists ↔
      ∃ list ∈ lists, ∃ op ∈ list.Ops, x ∈ op.IncludedRoomIDs := by
  simp [IncludedRoomIDsInOps, mem_foldl_lists]

theorem includedRoomIDs_eq_carried (op : ResponseOp) :
    op.IncludedRoomIDs =
      if (op.isRange = true ∧ op.Op = "INVALIDATE") ∨ (op.isRange = false ∧ op.Op = "DELETE")
      then [] else op.carriedRoomIDs := by
  cases op with
  | range oper =>
    by_cases h : oper.Operation = "INVALIDATE" <;>
      simp [ResponseOp.IncludedRoomIDs, ResponseOpRange.IncludedRoomIDs, ResponseOpRange.Op,
        ResponseOp.Op, ResponseOp.isRange, ResponseOp.carriedRoomIDs, OpInvalidate, h]
  | single oper =>
    obtain ⟨operation, index, room⟩ := oper
    by_cases h : operation = "DELETE" <;> cases room <;>
      simp [ResponseOp.IncludedRoomIDs, ResponseOpSingle.IncludedRoomIDs, ResponseOpSingle.Op,
        ResponseOp.Op, ResponseOp.isRange, ResponseOp.carriedRoomIDs, OpDelete, h]

/-! ## The claims about the included rooms -/

/-- C11: a room ID is in `IncludedRoomIDsInOps(lists)` exactly when it occurs in the
`IncludedRoomIDs()` of some op of some list; so the result is empty when there are no ops, and
two sequences of lists whose ops yield the same room IDs (reordered lists or ops, repeated ops)
give the same set. -/
theorem includedRoomIDsInOps_union (lists : List ResponseList) :
    (∀ roomID, roomID ∈ IncludedRoomIDsInOps lists ↔
      ∃ list ∈ lists, ∃ op ∈ list.Ops, roomID ∈ op.IncludedRoomIDs) ∧
    ((∀ list ∈ lists, list.Ops = []) → IncludedRoomIDsInOps lists = ∅) ∧
    (∀ lists' : List ResponseList,
      (∀ roomID, (∃ list ∈ lists', ∃ op ∈ list.Ops, roomID ∈ op.IncludedRoomIDs) ↔
        ∃ list ∈ lists, ∃ op ∈ list.Ops, roomID ∈ op.IncludedRoomIDs) →
      IncludedRoomIDsInOps lists' = IncludedRoomIDsInOps lists) ∧
    (∀ lists' : List ResponseList, lists'.Perm lists →
      IncludedRoomIDsInOps lists' = IncludedRoomIDsInOps lists) ∧
    IncludedRoomIDsInOps (lists ++ lists) = IncludedRoomIDsInOps lists := by
  refine ⟨mem_includedRoomIDsInOps lists, fun hempty => ?_, fun lists' hsame => ?_,
    fun lists' hperm => ?_, ?_⟩
  · ext x
    rw [mem_includedRoomIDsInOps]
    constructor
    · rintro ⟨list, hl, op, hop, -⟩
      rw [hempty list hl] at hop
      cases hop
    · intro hx
      cases hx
  · ext x
    rw [mem_includedRoomIDsInOps, mem_includedRoomIDsInOps, hsame]
  · ext x
    rw [mem_includedRoomIDsInOps, mem_includedRoomIDsInOps]
    constructor
    · rintro ⟨list, hl, rest⟩
      exact ⟨list, hperm.mem_iff.mp hl, rest⟩
    · rintro ⟨list, hl, rest⟩
      exact ⟨list, hperm.mem_iff.mpr hl, rest⟩
  · ext x
    rw [mem_includedRoomIDsInOps, mem_includedRoomIDsInOps]
    constructor
    · rintro ⟨list, hl, rest⟩
      exact ⟨list, (List.mem_append.mp hl).elim id id, rest⟩
    · rintro ⟨list, hl, rest⟩
      exact ⟨list, List.mem_append_left _ hl, rest⟩

/-- C12, as stated, fails when a room is carried both by a `SYNC` range op and by an
`INVALIDATE` range op of the same response: room `!a` is carried by the `INVALIDATE` op and is
in the result. -/
theorem includedRoomIDsInOps_invalidate_counterexample :
    invalidateA ∈ (ResponseList.mk [syncAB, invalidateA] 2).Ops ∧
      invalidateA.isRange = true ∧ invalidateA.Op = "INVALIDATE" ∧
      "!a" ∈ invalidateA.carriedRoomIDs ∧
      "!a" ∈ IncludedRoomIDsInOps [⟨[syncAB, invalidateA], 2⟩] := by
  refine ⟨by simp, rfl, rfl, by decide, ?_⟩
  rw [mem_includedRoomIDsInOps]
  exact ⟨_, List.mem_singleton.mpr rfl, syncAB, by simp, by decide⟩

/-- C12, amended: `IncludedRoomIDsInOps(lists)` contains every room carried by a `SYNC` range
op, an `INSERT` single op or an `UPDATE` single op in the lists, and every room it contains is
carried by an op in the lists that is neither an `INVALIDATE` range op nor a `DELETE` single
op (those two contribute no room). -/
theorem includedRoomIDsInOps_kinds (lists : List ResponseList) :
    (∀ list ∈ lists, ∀ op ∈ list.Ops,
      (op.isRange = true ∧ op.Op = "SYNC") ∨
        (op.isRange = false ∧ (op.Op = "INSERT" ∨ op.Op = "UPDATE")) →
      ∀ roomID ∈ op.carriedRoomIDs, roomID ∈ IncludedRoomIDsInOps lists) ∧
    (∀ roomID ∈ IncludedRoomIDsInOps lists,
      ∃ list ∈ lists, ∃ op ∈ list.Ops, roomID ∈ op.carriedRoomIDs ∧
        ¬ (op.isRange = true ∧ op.Op = "INVALIDATE") ∧
        ¬ (op.isRange = false ∧ op.Op = "DELETE")) := by
  constructor
  · intro list hl op hop hkind roomID hroom
    rw [mem_includedRoomIDsInOps]
    refine ⟨list, hl, op, hop, ?_⟩
    rw [includedRoomIDs_eq_carried, if_neg]
    · exact hroom
    · rintro (⟨hr, hk⟩ | ⟨hr, hk⟩)
      · rcases hkind with ⟨-, hs⟩ | ⟨hf, -⟩
        · rw [hk] at hs
          exact absurd hs (by decide)
        · rw [hr] at hf
          cases hf
      · rcases hkind with ⟨ht, -⟩ | ⟨-, hi | hu⟩
        · rw [hr] at ht
          cases ht
        · rw [hk] at hi
          exact absurd hi (by decide)
        · rw [hk] at hu
          exact absurd hu (by decide)
  · intro roomID hmem
    rw [mem_includedRoomIDsInOps] at hmem
    obtain ⟨list, hl, op, hop, hin⟩ := hmem
    rw [includedRoomIDs_eq_carried] at hin
    split at hin
    · cases hin
    · rename_i hnot
      exact ⟨list, hl, op, hop, hin, fun h => hnot (Or.inl h), fun h => hnot (Or.inr h)⟩

/-- C13: the code departs from the claim on a range op of kind `DELETE` and on a single op of
kind `INVALIDATE`.  Each variant tests only one excluding kind, so each of these two ops, as
decoded from its wire form, returns the room it carries, and the room is in
`IncludedRoomIDsInOps`; the comment on that function says that information means
SYNC/INSERT/UPDATE and not DELETE/INVALIDATE. -/
theorem includedRoomIDs_other_variant_returns_rooms :
    decodeOp opDeleteWithRange = .ok rangeDeleteA ∧
      rangeDeleteA.Op = "DELETE" ∧ rangeDeleteA.IncludedRoomIDs = ["!a"] ∧
      "!a" ∈ IncludedRoomIDsInOps [⟨[rangeDeleteA], 1⟩] ∧
      decodeOp opInvalidateWithIndex = .ok singleInvalidateA ∧
      singleInvalidateA.Op = "INVALIDATE" ∧ singleInvalidateA.IncludedRoomIDs = ["!a"] ∧
      "!a" ∈ IncludedRoomIDsInOps [⟨[singleInvalidateA], 1⟩] := by
  refine ⟨rfl, rfl, by decide, ?_, rfl, rfl, by decide, ?_⟩
  · rw [mem_includedRoomIDsInOps]
    exact ⟨_, List.mem_singleton.mpr rfl, rangeDeleteA, by simp, by decide⟩
  · rw [mem_includedRoomIDsInOps]
    exact ⟨_, List.mem_singleton.mpr rfl, singleInvalidateA, by simp, by decide⟩

/-- Apart from a range op of kind `DELETE` and a single op of kind `INVALIDATE`, an op of kind
`DELETE` or `INVALIDATE` returns no room IDs, whatever rooms it carries, and an op of any
other kind returns the IDs of all rooms it carries. -/
theorem includedRoomIDs_same_variant (op : ResponseOp)
    (hrange : ¬ (op.isRange = true ∧ op.Op = "DELETE"))
    (hsingle : ¬ (op.isRange = false ∧ op.Op = "INVALIDATE")) :
    (op.Op = "DELETE" ∨ op.Op = "INVALIDATE" → op.IncludedRoomIDs = []) ∧
    (op.Op ≠ "DELETE" → op.Op ≠ "INVALIDATE" → op.IncludedRoomIDs = op.carriedRoomIDs) := by
  rw [includedRoomIDs_eq_carried]
  cases hr : op.isRange <;> simp +contextual [hr] at hrange hsingle ⊢
  · rintro (hd | hi)
    · exact fun h => absurd hd h
    · exact absurd hi hsingle
  · rintro (hd | hi)
    · exact absurd hd hrange
    · exact fun h => absurd hi h

end Sync3

namespace Sync3

/-! ## A failed decode -/

theorem unmarshalJSON_ops_error (raws : List JSON) (acc : List ResponseOp) (err : Error)
    (h : Response.UnmarshalJSON.ops raws acc = .error err) :
    ∃ op ∈ raws, decodeOp op = .error err := by
  induction raws generalizing acc with
  | nil => simp [Response.UnmarshalJSON.ops] at h
  | cons raw rest ih =>
    simp only [Response.UnmarshalJSON.ops] at h
    split at h
    · rename_i e he
      cases h
      exact ⟨raw, List.mem_cons_self _ _, he⟩
    · obtain ⟨op, hop, hd⟩ := ih _ h
      exact ⟨op, List.mem_cons_of_mem _ hop, hd⟩

theorem unmarshalJSON_lists_error (tmp : List TemporaryList) (i : Nat)
    (rLists out : List ResponseList) (err : Error)
    (h : Response.UnmarshalJSON.lists tmp i rLists = (out, some err))
    (hlen : i + tmp.length ≤ rLists.length) :
    out.length = rLists.length ∧
      ∃ j t, tmp[j]? = some t ∧ Response.UnmarshalJSON.ops t.Ops.elems [] = .error err ∧
        (∀ m, m < i ∨ i + j ≤ m → out[m]? = rLists[m]?) ∧
        ∀ j' t', j' < j → tmp[j']? = some t' →
          ∃ ops, Response.UnmarshalJSON.ops t'.Ops.elems [] = .ok ops ∧
            out[i + j']? = some ⟨ops, t'.Count⟩ := by
  induction tmp generalizing i rLists with
  | nil => simp [Response.UnmarshalJSON.lists] at h
  | cons l rest ih =>
    simp only [Response.UnmarshalJSON.lists] at h
    split at h
    · rename_i e he
      simp only [Prod.mk.injEq, Option.some.injEq] at h
      obtain ⟨rfl, rfl⟩ := h
      exact ⟨rfl, 0, l, by simp, he, fun m _ => rfl,
        fun j' t' hj => absurd hj (Nat.not_lt_zero _)⟩
    · rename_i listOps hops
      simp only [List.length_cons] at hlen
      obtain ⟨h1, j, t, ht, herr, hsame, hdone⟩ := ih (i + 1) _ h (by simp; omega)
      refine ⟨by simpa using h1, j + 1, t, by simpa using ht, herr, fun m hm => ?_,
        fun j' t' hj ht' => ?_⟩
      · rw [hsame m (by omega), List.getElem?_set_ne (by omega)]
      · cases j' with
        | zero =>
          simp only [List.getElem?_cons_zero, Option.some.injEq] at ht'
          subst ht'
          refine ⟨listOps, hops, ?_⟩
          rw [Nat.add_zero, hsame i (by omega), List.getElem?_set_eq_of_lt _ (by omega)]
        | succ j' =>
          simp only [List.getElem?_cons_succ] at ht'
          obtain ⟨ops, ho, hg⟩ := hdone j' t' (by omega) ht'
          exact ⟨ops, ho, by rw [← hg]; congr 1; omega⟩

theorem forall₂_getElem?_left {α β : Type} (R : α → β → Prop) (xs : List α) (ys : List β)
    (h : List.Forall₂ R xs ys) (i : Nat) (x : α) (hx : xs[i]? = some x) :
    ∃ y, ys[i]? = some y ∧ R x y := by
  induction h generalizing i with
  | nil => simp at hx
  | cons hxy _ ih =>
    cases i with
    | zero =>
      simp only [List.getElem?_cons_zero, Option.some.injEq] at hx
      subst hx
      exact ⟨_, by simp, hxy⟩
    | succ i =>
      simp only [List.getElem?_cons_succ] at hx
      obtain ⟨y, hy, hr⟩ := ih i hx
      exact ⟨y, by simpa using hy, hr⟩

theorem forall₂_getElem?_right {α β : Type} (R : α → β → Prop) (xs : List α) (ys : List β)
    (h : List.Forall₂ R xs ys) (i : Nat) (y : β) (hy : ys[i]? = some y) :
    ∃ x, xs[i]? = some x ∧ R x y := by
  induction h generalizing i with
  | nil => simp at hy
  | cons hxy _ ih =>
    cases i with
    | zero =>
      simp only [List.getElem?_cons_zero, Option.some.injEq] at hy
      subst hy
      exact ⟨_, by simp, hxy⟩
    | succ i =>
      simp only [List.getElem?_cons_succ] at hy
      obtain ⟨x, hx, hr⟩ := ih i hy
      exact ⟨x, by simpa using hx, hr⟩

/-- C14, as stated, fails when an op has a wrongly typed field: the error is returned, but the
receiver's cursor, session, rooms and lists have already been overwritten. -/
theorem unmarshalJSON_partial_counterexample :
    Response.UnmarshalJSON noExtensions () staleResponse envelopeBadOp =
        (⟨[⟨[], 0⟩], [], (), "42", ""⟩, some .UnmarshalTypeError) ∧
      staleResponse.Pos = "7" ∧ staleResponse.Session = "s" ∧
      staleResponse.Rooms = [("!old", ⟨"!old"⟩)] ∧ staleResponse.Lists = [⟨[], 3⟩] :=
  ⟨rfl, rfl, rfl, rfl, rfl⟩

/-- C14, amended: whenever `Response.UnmarshalJSON` fails it returns the underlying decode
error.  If the bytes are not valid JSON, or the envelope itself does not decode, the receiver
is left exactly as it was.  If the envelope decodes and an op of some list does not, the
receiver already holds the rooms, extensions, cursor and session decoded from the envelope
(the cursor and the session those of the members `pos` and `session_id`, when named at most
once), and as many lists as were decoded: those before the failing list decoded, the failing
one and those after it empty with count 0.  When no object of the envelope names a field of
the lists twice, these are the lists of the input: the receiver has as many lists as the member
`lists` has elements, the failing list is the first with an op that does not decode, and every
list before it holds its decoded ops and its count. -/
theorem Response.unmarshalJSON_error {ε : Type}
    (unmarshalExtensions : ε → JSON → Except Error ε) (zero : ε) (r r' : Response ε)
    (parsed : Except Error JSON) (err : Error)
    (h : Response.UnmarshalJSON.ofBytes unmarshalExtensions zero r parsed = (r', some err)) :
    (parsed = .error err ∧ r' = r) ∨
    (∃ b, parsed = .ok b ∧ Temporary.unmarshal unmarshalExtensions zero b = .error err ∧
      r' = r) ∨
    (∃ b temporary, parsed = .ok b ∧
      Temporary.unmarshal unmarshalExtensions zero b = .ok temporary ∧
      r'.Rooms = temporary.Rooms ∧ r'.Extensions = temporary.Extensions ∧
      r'.Pos = temporary.Pos ∧ r'.Session = temporary.Session ∧
      (selectsOnce "pos" b = true → r'.Pos = strOf (b.field "pos")) ∧
      (selectsOnce "session_id" b = true → r'.Session = strOf (b.field "session_id")) ∧
      r'.Lists.length = temporary.Lists.elems.length ∧
      ∃ j t, temporary.Lists.elems[j]? = some t ∧
        (∃ op ∈ t.Ops.elems, decodeOp op = .error err) ∧
        (∀ m, j ≤ m → m < temporary.Lists.elems.length → r'.Lists[m]? = some ⟨[], 0⟩) ∧
        (∀ j' t', j' < j → temporary.Lists.elems[j']? = some t' →
          ∃ ops, Response.UnmarshalJSON.ops t'.Ops.elems [] = .ok ops ∧
            r'.Lists[j']? = some ⟨ops, t'.Count⟩) ∧
        (noRepeatedFields b = true →
          r'.Lists.length = (arrayElems (b.field "lists")).length ∧
          ∃ rawList, (arrayElems (b.field "lists"))[j]? = some rawList ∧
            (∃ op ∈ arrayElems (rawList.field "ops"), decodeOp op = .error err) ∧
            ∀ j' rawList', j' < j → (arrayElems (b.field "lists"))[j']? = some rawList' →
              ∃ ops, r'.Lists[j']? = some ⟨ops, intOf (rawList'.field "count")⟩ ∧
                List.Forall₂ (fun op raw => decodeOp raw = .ok op) ops
                  (arrayElems (rawList'.field "ops")))) := by
  cases parsed with
  | error e =>
    simp only [Response.UnmarshalJSON.ofBytes, Prod.mk.injEq, Option.some.injEq] at h
    exact Or.inl ⟨by rw [h.2], h.1.symm⟩
  | ok b =>
    simp only [Response.UnmarshalJSON.ofBytes, Response.UnmarshalJSON] at h
    split at h
    · rename_i e he
      simp only [Prod.mk.injEq, Option.some.injEq] at h
      exact Or.inr (Or.inl ⟨b, rfl, by rw [he, h.2], h.1.symm⟩)
    · rename_i temporary htmp
      simp only [Prod.mk.injEq] at h
      obtain ⟨hr, herr⟩ := h
      have hloop :
          Response.UnmarshalJSON.lists temporary.Lists.elems 0
              (List.replicate temporary.Lists.elems.length ⟨[], 0⟩) =
            ((Response.UnmarshalJSON.lists temporary.Lists.elems 0
              (List.replicate temporary.Lists.elems.length ⟨[], 0⟩)).1, some err) := by
        rw [← herr]
      obtain ⟨hlen, j, t, ht, hfail, hsame, hdone⟩ :=
        unmarshalJSON_lists_error _ _ _ _ _ hloop (by simp)
      subst hr
      obtain ⟨op, hop, hd⟩ := unmarshalJSON_ops_error _ _ _ hfail
      have hpos : selectsOnce "pos" b = true → temporary.Pos = strOf (b.field "pos") :=
        string_field_decoded _ "pos" (fun s => s.Pos)
          (Temporary.setField_pos unmarshalExtensions) b _ temporary rfl htmp
      have hsession : selectsOnce "session_id" b = true →
          temporary.Session = strOf (b.field "session_id") :=
        string_field_decoded _ "session_id" (fun s => s.Session)
          (Temporary.setField_session unmarshalExtensions) b _ temporary rfl htmp
      have hbefore : ∀ j' t', j' < j → temporary.Lists.elems[j']? = some t' →
          ∃ ops, Response.UnmarshalJSON.ops t'.Ops.elems [] = .ok ops ∧
            (Response.UnmarshalJSON.lists temporary.Lists.elems 0
              (List.replicate temporary.Lists.elems.length ⟨[], 0⟩)).1[j']? =
                some ⟨ops, t'.Count⟩ := by
        intro j' t' hj ht'
        obtain ⟨ops, ho, hg⟩ := hdone j' t' hj ht'
        exact ⟨ops, ho, by simpa using hg⟩
      refine Or.inr (Or.inr ⟨b, temporary, rfl, htmp, rfl, rfl, rfl, rfl, hpos, hsession,
        by simpa using hlen, j, t, ht, ⟨op, hop, hd⟩, fun m hjm hm => ?_, hbefore,
        fun hfields => ?_⟩)
      · have := hsame m (Or.inr (by omega))
        simp only [this]
        simp [List.getElem?_replicate, hm]
      · simp only [noRepeatedFields, Bool.and_eq_true, List.all_eq_true] at hfields
        obtain ⟨hlists, hall⟩ := hfields
        have hraws := temporary_lists_decoded unmarshalExtensions zero b temporary htmp hlists
        obtain ⟨rawList, hraw, hdec⟩ := forall₂_getElem?_left _ _ _ hraws j t ht
        have hmem : rawList ∈ arrayElems (b.field "lists") := List.getElem?_mem hraw
        obtain ⟨hops, -⟩ := temporaryList_decoded rawList t hdec (hall rawList hmem).1
          (hall rawList hmem).2
        refine ⟨?_, rawList, hraw, ⟨op, by rw [← hops]; exact hop, hd⟩, ?_⟩
        · simp only [List.length_replicate] at hlen
          rw [hlen]
          exact hraws.length_eq
        · intro j' rawList' hj hraw'
          obtain ⟨t', ht', hdec'⟩ := forall₂_getElem?_right _ _ _ hraws j' rawList' hraw'
          have hmem' : rawList' ∈ arrayElems (b.field "lists") := List.getElem?_mem hraw'
          obtain ⟨hops', hcount'⟩ := temporaryList_decoded rawList' t' hdec'
            (hall rawList' hmem').1 (hall rawList' hmem').2
          obtain ⟨ops, ho, hg⟩ := hbefore j' t' hj ht'
          obtain ⟨decoded, hdecoded, hforall⟩ := unmarshalJSON_ops_spec _ _ _ ho
          simp only [List.nil_append] at hdecoded
          subst hdecoded
          exact ⟨ops, by rw [hg, hcount'], by rw [← hops']; exact hforall⟩

/-- C14, amended, on an envelope whose second op has a wrongly typed `op` field: the
receiver is overwritten, with the cursor `42` of the input and one list, the failing one. -/
theorem Response.unmarshalJSON_error_witness :
    Response.UnmarshalJSON.ofBytes noExtensions () staleResponse (.ok envelopeBadOp) =
        (⟨[⟨[], 0⟩], [], (), "42", ""⟩, some .UnmarshalTypeError) ∧
      ∃ b temporary, (Except.ok envelopeBadOp : Except Error JSON) = .ok b ∧
        Temporary.unmarshal noExtensions () b = .ok temporary ∧
        temporary.Pos = "42" ∧ temporary.Lists.elems.length = 1 := by
  refine ⟨rfl, ?_⟩
  rcases Response.unmarshalJSON_error noExtensions () staleResponse _ (.ok envelopeBadOp) _
    (rfl : Response.UnmarshalJSON.ofBytes noExtensions () staleResponse (.ok envelopeBadOp) =
      (⟨[⟨[], 0⟩], [], (), "42", ""⟩, some .UnmarshalTypeError)) with
    h | ⟨b, hb, hfail, -⟩ | ⟨b, temporary, hb, htmp, -, -, hpos, -, -, -, hlen, -⟩
  · cases h.1
  · cases hb
    cases hfail
  · exact ⟨b, temporary, hb, htmp, hpos.symm, hlen.symm⟩

end Sync3

namespace Sync3

/-! ## Parsing the cursor -/

theorem foldl_digits_ge (ds : List Char) (m : Nat) :
    m ≤ ds.foldl (fun n c => n * 10 + (c.toNat - 48)) m := by
  induction ds generalizing m with
  | nil => simp
  | cons d rest ih =>
    simp only [List.foldl_cons]
    exact le_trans (by omega) (ih _)

theorem parseUint_loop_digits (ds : List Char) (n : Nat) (hn : n ≤ maxUint64)
    (hds : ∀ c ∈ ds, isDecimalDigit c = true) :
    ParseUint.loop ds n =
      if ds.foldl (fun n c => n * 10 + (c.toNat - 48)) n ≤ maxUint64 then
        (ds.foldl (fun n c => n * 10 + (c.toNat - 48)) n, none)
      else (maxUint64, some .ErrRange) := by
  induction ds generalizing n with
  | nil => simp [ParseUint.loop, hn]
  | cons d rest ih =>
    have hd : isDecimalDigit d = true := hds d (List.mem_cons_self _ _)
    have hrest : ∀ c ∈ rest, isDecimalDigit c = true :=
      fun c hc => hds c (List.mem_cons_of_mem _ hc)
    have hge := foldl_digits_ge rest (n * 10 + (d.toNat - 48))
    simp only [ParseUint.loop, hd, if_true, List.foldl_cons]
    by_cases h1 : n ≥ maxUint64 / 10 + 1
    · have : ¬ (rest.foldl (fun n c => n * 10 + (c.toNat - 48)) (n * 10 + (d.toNat - 48))
          ≤ maxUint64) := by
        simp only [maxUint64] at h1 ⊢
        omega
      simp [h1, this]
    · by_cases h2 : n * 10 + (d.toNat - 48) > maxUint64
      · have : ¬ (rest.foldl (fun n c => n * 10 + (c.toNat - 48)) (n * 10 + (d.toNat - 48))
            ≤ maxUint64) := by omega
        simp [h1, h2, this]
      · simp only [h1, h2, if_false]
        exact ih _ (by omega) hrest

theorem parseUint_loop_bad (ds : List Char) (c : Char) (rest : List Char) (n : Nat)
    (hds : ∀ c ∈ ds, isDecimalDigit c = true) (hc : isDecimalDigit c = false)
    (hval : ds.foldl (fun n c => n * 10 + (c.toNat - 48)) n ≤ maxUint64) :
    ParseUint.loop (ds ++ c :: rest) n = (0, some .ErrSyntax) := by
  induction ds generalizing n with
  | nil => simp [ParseUint.loop, hc]
  | cons d ds' ih =>
    have hd : isDecimalDigit d = true := hds d (List.mem_cons_self _ _)
    have hrest : ∀ c ∈ ds', isDecimalDigit c = true :=
      fun c hc => hds c (List.mem_cons_of_mem _ hc)
    simp only [List.foldl_cons] at hval
    have hge := foldl_digits_ge ds' (n * 10 + (d.toNat - 48))
    have h1 : ¬ n ≥ maxUint64 / 10 + 1 := by
      simp only [maxUint64] at hval ⊢
      omega
    have h2 : ¬ n * 10 + (d.toNat - 48) > maxUint64 := by omega
    simp only [List.cons_append, ParseUint.loop, hd, if_true, h1, h2, if_false]
    exact ih _ hrest hval

theorem parseUint_digits (ds : List Char) (hne : ds ≠ [])
    (hds : ∀ c ∈ ds, isDecimalDigit c = true) :
    ParseUint ds =
      if decimalValue ds ≤ maxUint64 then (decimalValue ds, none)
      else (maxUint64, some .ErrRange) := by
  cases ds with
  | nil => exact absurd rfl hne
  | cons d rest =>
    simp only [ParseUint, decimalValue]
    exact parseUint_loop_digits _ 0 (by simp [maxUint64]) hds

theorem parseUint_bad (ds : List Char) (c : Char) (rest : List Char)
    (hds : ∀ c ∈ ds, isDecimalDigit c = true) (hc : isDecimalDigit c = false)
    (hval : decimalValue ds ≤ maxUint64) :
    ParseUint (ds ++ c :: rest) = (0, some .ErrSyntax) := by
  have := parseUint_loop_bad ds c rest 0 hds hc hval
  cases ds with
  | nil => simpa [ParseUint] using this
  | cons d ds' => simpa [ParseUint] using this

theorem digit_not_sign (c : Char) (hc : isDecimalDigit c = true) : c ≠ '+' ∧ c ≠ '-' := by
  constructor <;> rintro rfl <;> exact absurd hc (by decide)

/-- What `ParseInt` makes of what `ParseUint` returned for the digits after the sign. -/
theorem parseInt_of_parseUint (s : String) (c : Char) (rest : List Char)
    (hs : s.data = c :: rest) :
    ParseInt s =
      match ParseUint (if c = '+' ∨ c = '-' then rest else c :: rest) with
      | (_, some .ErrSyntax) => (0, some .ErrSyntax)
      | (un, _) =>
        if !decide (c = '-') && decide (un ≥ 9223372036854775808) then
          (9223372036854775807, some .ErrRange)
        else if decide (c = '-') && decide (un > 9223372036854775808) then
          (-9223372036854775808, some .ErrRange)
        else (if decide (c = '-') = true then -(un : Int) else (un : Int), none) := by
  simp only [ParseInt, hs]

theorem parseInt_unsigned (s : String) (ds : List Char) (hne : ds ≠ [])
    (hds : ∀ c ∈ ds, isDecimalDigit c = true) (hs : s.data = ds ∨ s.data = '+' :: ds) :
    (ParseInt s).1 =
      if decimalValue ds ≤ 9223372036854775807 then (decimalValue ds : Int)
      else 9223372036854775807 := by
  have hu := parseUint_digits ds hne hds
  have hparse : ParseInt s =
      match ParseUint ds with
      | (_, some .ErrSyntax) => (0, some .ErrSyntax)
      | (un, _) =>
        if decide (un ≥ 9223372036854775808) then (9223372036854775807, some .ErrRange)
        else ((un : Int), none) := by
    rcases hs with hs | hs
    · cases ds with
      | nil => exact absurd rfl hne
      | cons d rest =>
        obtain ⟨hp, hm⟩ := digit_not_sign d (hds d (List.mem_cons_self _ _))
        rw [parseInt_of_parseUint s d rest hs]
        simp [hp, hm]
    · rw [parseInt_of_parseUint s '+' ds hs]
      simp
  simp only [maxUint64] at hu
  rw [hparse, hu]
  by_cases h64 : decimalValue ds ≤ 18446744073709551615
  · by_cases h63 : decimalValue ds ≤ 9223372036854775807
    · have : ¬ decimalValue ds ≥ 9223372036854775808 := by omega
      simp [h64, h63, this]
    · have : decimalValue ds ≥ 9223372036854775808 := by omega
      simp [h64, h63, this]
  · have h63 : ¬ decimalValue ds ≤ 9223372036854775807 := by omega
    simp [h64, h63]

theorem parseInt_negative (s : String) (ds : List Char) (hne : ds ≠ [])
    (hds : ∀ c ∈ ds, isDecimalDigit c = true) (hs : s.data = '-' :: ds) :
    (ParseInt s).1 =
      if decimalValue ds ≤ 9223372036854775808 then -(decimalValue ds : Int)
      else -9223372036854775808 := by
  have hu := parseUint_digits ds hne hds
  rw [parseInt_of_parseUint s '-' ds hs]
  simp only [maxUint64] at hu
  simp only [or_true, if_true, hu]
  by_cases h64 : decimalValue ds ≤ 18446744073709551615
  · by_cases h63 : decimalValue ds ≤ 9223372036854775808
    · have : ¬ decimalValue ds > 9223372036854775808 := by omega
      simp [h64, h63, this]
    · have : decimalValue ds > 9223372036854775808 := by omega
      simp [h64, h63, this]
  · have h63 : ¬ decimalValue ds ≤ 9223372036854775808 := by omega
    simp [h64, h63]

theorem parseInt_syntax (s : String) (ds : List Char) (c : Char) (rest : List Char)
    (hds : ∀ c ∈ ds, isDecimalDigit c = true) (hc : isDecimalDigit c = false)
    (hval : decimalValue ds ≤ maxUint64)
    (hs : (s.data = ds ++ c :: rest ∧ (ds = [] → c ≠ '+' ∧ c ≠ '-')) ∨
      s.data = '+' :: (ds ++ c :: rest) ∨ s.data = '-' :: (ds ++ c :: rest)) :
    (ParseInt s).1 = 0 := by
  have hu := parseUint_bad ds c rest hds hc hval
  rcases hs with ⟨hs, hsign⟩ | hs | hs
  · cases ds with
    | nil =>
      obtain ⟨hp, hm⟩ := hsign rfl
      rw [parseInt_of_parseUint s c rest hs]
      simp only [List.nil_append] at hu
      simp [hp, hm, hu]
    | cons d ds' =>
      obtain ⟨hp, hm⟩ := digit_not_sign d (hds d (List.mem_cons_self _ _))
      rw [parseInt_of_parseUint s d (ds' ++ c :: rest) hs]
      simp only [List.cons_append] at hu
      simp [hp, hm, hu]
  · rw [parseInt_of_parseUint s '+' _ hs]
    simp [hu]
  · rw [parseInt_of_parseUint s '-' _ hs]
    simp [hu]

/-! ## The claims about the cursor -/

/-- C15, as stated, fails on a decimal cursor just above the 64-bit range: `ParseInt` reports a
range error together with the largest `int64`, and `PosInt` returns that value, not 0. -/
theorem posInt_out_of_range_counterexample :
    decimalValue "9223372036854775808".data = 9223372036854775808 ∧
      ParseInt "9223372036854775808" = (9223372036854775807, some .ErrRange) ∧
      (withPos "9223372036854775808").PosInt = 9223372036854775807 ∧
      (withPos "-9223372036854775809").PosInt = -9223372036854775808 := by
  refine ⟨by decide, by decide, by decide, by decide⟩

/-- C15, amended: for a cursor made of decimal digits with an optional sign, `PosInt` returns
its integer value when that fits in 64 bits (`42` gives 42), and the bound of its sign,
9223372036854775807 or -9223372036854775808, when it does not.  It returns 0 without an
error for the empty cursor, for a lone sign, and for a cursor with a character that is not a
decimal digit, as long as the digits before that character fit in an unsigned 64-bit number
(`not-a-number` gives 0). -/
theorem Response.posInt_cases {ε : Type} (r : Response ε) :
    (∀ ds : List Char, ds ≠ [] → (∀ c ∈ ds, isDecimalDigit c = true) →
      ((r.Pos.data = ds ∨ r.Pos.data = '+' :: ds) →
        (decimalValue ds ≤ 9223372036854775807 → r.PosInt = (decimalValue ds : Int)) ∧
        (decimalValue ds > 9223372036854775807 → r.PosInt = 9223372036854775807)) ∧
      (r.Pos.data = '-' :: ds →
        (decimalValue ds ≤ 9223372036854775808 → r.PosInt = -(decimalValue ds : Int)) ∧
        (decimalValue ds > 9223372036854775808 → r.PosInt = -9223372036854775808))) ∧
    (r.Pos.data = [] ∨ r.Pos.data = ['+'] ∨ r.Pos.data = ['-'] → r.PosInt = 0) ∧
    (∀ (ds : List Char) (c : Char) (rest : List Char),
      (∀ d ∈ ds, isDecimalDigit d = true) → isDecimalDigit c = false →
      decimalValue ds ≤ maxUint64 →
      (r.Pos.data = ds ++ c :: rest ∧ (ds = [] → c ≠ '+' ∧ c ≠ '-')) ∨
        r.Pos.data = '+' :: (ds ++ c :: rest) ∨ r.Pos.data = '-' :: (ds ++ c :: rest) →
      r.PosInt = 0) ∧
    (withPos "42").PosInt = 42 ∧ (withPos "not-a-number").PosInt = 0 ∧
      (withPos "").PosInt = 0 := by
  refine ⟨fun ds hne hds => ⟨fun hs => ?_, fun hs => ?_⟩, fun hs => ?_,
    fun ds c rest hds hc hval hs => parseInt_syntax r.Pos ds c rest hds hc hval hs,
    by decide, by decide, by decide⟩
  · have := parseInt_unsigned r.Pos ds hne hds hs
    simp only [Response.PosInt]
    constructor
    · intro h
      rw [this, if_pos h]
    · intro h
      rw [this, if_neg (by omega)]
  · have := parseInt_negative r.Pos ds hne hds hs
    simp only [Response.PosInt]
    constructor
    · intro h
      rw [this, if_pos h]
    · intro h
      rw [this, if_neg (by omega)]
  · simp only [Response.PosInt, ParseInt]
    rcases hs with hs | hs | hs <;> rw [hs] <;> rfl

end Sync3
